import Mathlib

set_option linter.unusedVariables false

/-!
Formal model of the cmctl test-manifest inventory tooling
(the manifest normalizer `cleanupManifests`, the inventory codec
`Inventory.read` / `Inventory.write`, the source adapter `listVersions`,
the compile driver `main`, and the version detector interface).

Byte strings are modelled as lists of characters (`Str`); all data the
program manipulates here is ASCII, so a character stands for one byte.
The external YAML library (gopkg.in/yaml.v2) is modelled at its call
boundary by a `YamlLib` record holding a multi-document decoder and a
marshaller; everything else is translated from the source.
-/

abbrev Str := List Char

/-- Convert a Lean string literal to the byte-list model. -/
def str (s : String) : Str := s.data

/-- Go bytes.HasPrefix / strings.HasPrefix. -/
def strHasPre (s pat : Str) : Bool := pat.isPrefixOf s

/-- Go bytes.HasSuffix / strings.HasSuffix. -/
def strHasSuf (s pat : Str) : Bool := pat.isSuffixOf s

/-- Go bytes.TrimPrefix: remove one leading copy of pat if present. -/
def strDropPre (s pat : Str) : Str :=
  if pat.isPrefixOf s then s.drop pat.length else s

/-- Go bytes.TrimSuffix: remove one trailing copy of pat if present. -/
def strDropSuf (s pat : Str) : Str :=
  if pat.isSuffixOf s then s.take (s.length - pat.length) else s

/-- ASCII white space, as unicode.IsSpace acts on the ASCII range. -/
def isSpaceB (c : Char) : Bool :=
  (c == ' ') || (c == '\t') || (c == '\n') || (c == '\x0b') || (c == '\x0c') || (c == '\r')

/-- Go strings.TrimSpace (on ASCII data). -/
def goTrimSpace (s : Str) : Str :=
  ((s.dropWhile isSpaceB).reverse.dropWhile isSpaceB).reverse

/-- Scan position of the first occurrence of sep, as bytes.Index. -/
def findSub (sep : Str) : Str → Option Nat
  | [] => if sep = [] then some 0 else none
  | c :: rest =>
    if sep.isPrefixOf (c :: rest) then some 0
    else (findSub sep rest).map (· + 1)

/-- Go bytes.SplitN(s, sep, 2) for nonempty sep: split at the first
occurrence of sep, or return the whole string as a single part. -/
def goSplitN2 (s sep : Str) : List Str :=
  match findSub sep s with
  | none => [s]
  | some i => [s.take i, s.drop (i + sep.length)]

/-- Prepend a character to the first piece of a split result. -/
def consHead (c : Char) : List Str → List Str
  | [] => [[c]]
  | p :: ps => (c :: p) :: ps

/-- Fuelled scanner behind bytes.Split: greedy left-to-right search for
sep, cutting a piece at each occurrence. The fuel is only a structural
recursion device; it is always called with at least the string length. -/
def goSplitF (sep : Str) : Nat → Str → List Str
  | _, [] => [[]]
  | 0, s => [s]
  | Nat.succ f, c :: rest =>
    if sep.isPrefixOf (c :: rest) then
      [] :: goSplitF sep f ((c :: rest).drop sep.length)
    else
      consHead c (goSplitF sep f rest)

/-- Go bytes.Split / strings.Split. Empty separator explodes into
one-character pieces, as in Go. -/
def goSplit (s sep : Str) : List Str :=
  if sep = [] then s.map (fun c => [c]) else goSplitF sep s.length s

/-- Fuelled scanner behind bytes.ReplaceAll for nonempty old. -/
def goReplF (old new : Str) : Nat → Str → Str
  | _, [] => []
  | 0, s => s
  | Nat.succ f, c :: rest =>
    if old.isPrefixOf (c :: rest) then
      new ++ goReplF old new f ((c :: rest).drop old.length)
    else
      c :: goReplF old new f rest

/-- Go bytes.ReplaceAll(s, old, new). For empty old, Go inserts new at
the start and after every byte. -/
def goReplaceAll (s old new : Str) : Str :=
  if old = [] then new ++ (s.map (fun c => c :: new)).flatten
  else goReplF old new s.length s

/-- Go strings.Join / bytes.Join. -/
def strJoin (sep : Str) : List Str → Str
  | [] => []
  | [x] => x
  | x :: y :: t => x ++ sep ++ strJoin sep (y :: t)

/-- Does pat occur as a contiguous substring of s? -/
def occursIn (pat : Str) : Str → Bool
  | [] => pat.isPrefixOf []
  | c :: rest => pat.isPrefixOf (c :: rest) || occursIn pat rest

/-! ## FNV-1 64-bit hash (hash/fnv New64) and lowercase hex encoding -/

def fnvPrime : Nat := 1099511628211

def fnvOffset : Nat := 14695981039346656037

/-- One step of FNV-1: multiply by the prime modulo 2^64, then xor the
next byte in. -/
def fnvStep (h b : Nat) : Nat := Nat.xor ((h * fnvPrime) % 2 ^ 64) b

def fnv64 (s : Str) : Nat := s.foldl (fun h c => fnvStep h c.toNat) fnvOffset

def hexDigit (n : Nat) : Char :=
  if n < 10 then Char.ofNat (48 + n) else Char.ofNat (87 + n)

/-- hex.EncodeToString of the big-endian 8-byte FNV sum. -/
def hexOfNat64 (n : Nat) : Str :=
  (List.range 16).map (fun i => hexDigit (n / 16 ^ (15 - i) % 16))

/-- The manifest fingerprint: manifestHash in the source (FNV-1 64 of
the normalized bytes, hex encoded). -/
def fnvHex (s : Str) : Str := hexOfNat64 (fnv64 s)

/-! ## golang.org/x/mod/semver, as used by the source -/

/-- Go x/mod/semver ident characters: ASCII letters, digits, hyphen. -/
def isIdentC (c : Char) : Bool := c.isAlpha || c.isDigit || c == '-'

def svIsNum (v : Str) : Bool := v.all Char.isDigit

def svIsBadNum (v : Str) : Bool :=
  svIsNum v && decide (v.length > 1) && (v.head? == some '0')

/-- x/mod/semver parseInt: a nonempty digit run without leading zeros. -/
def svParseInt (v : Str) : Option (Str × Str) :=
  match v with
  | [] => none
  | c :: _ =>
    if c.isDigit then
      let t := v.takeWhile Char.isDigit
      if c = '0' ∧ t.length ≠ 1 then none
      else some (t, v.dropWhile Char.isDigit)
    else none

/-- x/mod/semver parsePrerelease: a '-' then dot-separated nonempty
identifiers, numeric ones without leading zeros, stopping at '+'. -/
def svParsePre (v : Str) : Option (Str × Str) :=
  match v with
  | '-' :: tail =>
    let body := tail.takeWhile (fun c => c ≠ '+')
    let rest := tail.dropWhile (fun c => c ≠ '+')
    if body.all (fun c => isIdentC c || c == '.') &&
        (goSplit body ['.']).all (fun seg => decide (seg ≠ []) && !svIsBadNum seg) then
      some ('-' :: body, rest)
    else none
  | _ => none

/-- x/mod/semver parseBuild: a '+' then dot-separated nonempty
identifier segments running to the end of the string. -/
def svParseBuild (v : Str) : Option (Str × Str) :=
  match v with
  | '+' :: body =>
    if body.all (fun c => isIdentC c || c == '.') &&
        (goSplit body ['.']).all (fun seg => decide (seg ≠ [])) then
      some ('+' :: body, [])
    else none
  | _ => none

structure SvParsed where
  major : Str
  minor : Str
  patch : Str
  short : Str
  prerelease : Str
  build : Str
deriving DecidableEq

/-- x/mod/semver parse. -/
def svParse (v : Str) : Option SvParsed :=
  match v with
  | 'v' :: v1 =>
    match svParseInt v1 with
    | none => none
    | some (maj, r1) =>
      match r1 with
      | [] => some ⟨maj, ['0'], ['0'], str ".0.0", [], []⟩
      | '.' :: r2 =>
        match svParseInt r2 with
        | none => none
        | some (mi, r3) =>
          match r3 with
          | [] => some ⟨maj, mi, ['0'], str ".0", [], []⟩
          | '.' :: r4 =>
            match svParseInt r4 with
            | none => none
            | some (pa, r5) =>
              match (if r5.head? = some '-' then svParsePre r5 else some ([], r5)) with
              | none => none
              | some (pre, r6) =>
                match (if r6.head? = some '+' then svParseBuild r6 else some ([], r6)) with
                | none => none
                | some (bld, r7) =>
                  if r7 = [] then some ⟨maj, mi, pa, [], pre, bld⟩ else none
          | _ => none
      | _ => none
  | _ => none

/-- x/mod/semver Canonical: empty for invalid input, otherwise the
vMAJOR.MINOR.PATCH[-PRERELEASE] form with build metadata stripped. -/
def svCanonical (v : Str) : Str :=
  match svParse v with
  | none => []
  | some p => if p.build ≠ [] then v.take (v.length - p.build.length) else v ++ p.short

/-- Go byte-wise lexicographic string comparison (string <). -/
def strLt : Str → Str → Bool
  | [], [] => false
  | [], _ :: _ => true
  | _ :: _, [] => false
  | a :: as, b :: bs => if a < b then true else if b < a then false else strLt as bs

/-- x/mod/semver compareInt on canonical digit strings. -/
def svCmpInt (x y : Str) : Int :=
  if x = y then 0
  else if x.length < y.length then -1
  else if y.length < x.length then 1
  else if strLt x y then -1 else 1

/-- x/mod/semver nextIdent: the identifier up to the next dot. -/
def svNextIdent (s : Str) : Str × Str :=
  (s.takeWhile (fun c => c ≠ '.'), s.dropWhile (fun c => c ≠ '.'))

/-- The loop of x/mod/semver comparePrerelease, fuelled structurally. -/
def svCmpPreF : Nat → Str → Str → Int
  | _, [], _ => -1
  | _, _ :: _, [] => 1
  | 0, _ :: _, _ :: _ => 0
  | Nat.succ f, x :: xs, y :: ys =>
    let (dx, x2) := svNextIdent xs
    let (dy, y2) := svNextIdent ys
    if dx ≠ dy then
      if svIsNum dx ≠ svIsNum dy then (if svIsNum dx then -1 else 1)
      else if svIsNum dx ∧ dx.length < dy.length then -1
      else if svIsNum dx ∧ dy.length < dx.length then 1
      else if strLt dx dy then -1 else 1
    else svCmpPreF f x2 y2

/-- x/mod/semver comparePrerelease: the empty prerelease sorts above
any nonempty one. -/
def svCmpPre (x y : Str) : Int :=
  if x = y then 0
  else if x = [] then 1
  else if y = [] then -1
  else svCmpPreF x.length x y

/-- x/mod/semver Compare; invalid versions sort below all valid ones. -/
def svCompare (v w : Str) : Int :=
  match svParse v, svParse w with
  | none, none => 0
  | none, some _ => -1
  | some _, none => 1
  | some pv, some pw =>
    let c1 := svCmpInt pv.major pw.major
    if c1 ≠ 0 then c1 else
    let c2 := svCmpInt pv.minor pw.minor
    if c2 ≠ 0 then c2 else
    let c3 := svCmpInt pv.patch pw.patch
    if c3 ≠ 0 then c3 else svCmpPre pv.prerelease pw.prerelease

/-! ## The YAML library boundary and the manifest normalizer -/

/-- A generic YAML value, the model of Go interface trees produced by
yaml.v2: scalars (restricted to strings and null, which is all the
normalizer ever inspects), sequences, string-keyed maps
(map with string keys) and arbitrary-keyed maps. -/
inductive YVal where
  | s (v : String)
  | nullv
  | arr (xs : List YVal)
  | smap (m : List (String × YVal))
  | amap (m : List (YVal × YVal))

/-- A top-level document is a string-keyed map, as the source decodes
each document into a Go map with string keys. -/
abbrev YMap := List (String × YVal)

/-- The outcome of one decoder.Decode call inside the loop of
cleanupManifests: a document that decodes to nil (empty document), a
document on which Decode returns a non-EOF error (malformed YAML, or a
document that is not a mapping), or a decoded mapping. -/
inductive DocRes where
  | emptyDoc
  | errDoc
  | mapDoc (m : YMap)

/-- The yaml.v2 call boundary: decodeAll is the sequence of Decode
results until EOF (or an error creating the stream), marshal is
yaml.Marshal on a document. Both are fixed pure functions of their
input, which is how the Go library behaves. -/
structure YamlLib where
  decodeAll : Str → Except String (List DocRes)
  marshal : YMap → Except String Str

instance {α β : Type} [DecidableEq α] [DecidableEq β] : DecidableEq (Except α β) := fun a b =>
  match a, b with
  | Except.error x, Except.error y => decidable_of_iff (x = y) (by simp)
  | Except.error _, Except.ok _ => isFalse (fun hc => Except.noConfusion hc)
  | Except.ok _, Except.error _ => isFalse (fun hc => Except.noConfusion hc)
  | Except.ok x, Except.ok y => decidable_of_iff (x = y) (by simp)

/-- First-match lookup in a string-keyed map (Go map indexing; keys of
a Go map are unique). -/
def ymGet (m : YMap) (k : String) : Option YVal :=
  match m with
  | [] => none
  | (k', v) :: rest => if k' = k then some v else ymGet rest k

/-- Replace the value stored under an existing key. -/
def ymSetReplace : YMap → String → YVal → YMap
  | [], _, _ => []
  | p :: rest, k, v =>
    if p.1 = k then (k, v) :: ymSetReplace rest k v else p :: ymSetReplace rest k v

/-- Go map assignment m[k] = v on a string-keyed map. -/
def ymSet (m : YMap) (k : String) (v : YVal) : YMap :=
  if (ymGet m k).isSome then ymSetReplace m k v else m ++ [(k, v)]

/-- Go delete(m, k) on a string-keyed map. -/
def ymDel : YMap → String → YMap
  | [], _ => []
  | p :: rest, k => if p.1 = k then ymDel rest k else p :: ymDel rest k

/-- Go interface equality of an arbitrary map key against the string
key "versions", the only key the source ever writes into an
arbitrary-keyed map: true exactly when the key is that string. -/
def isVersionsKey : YVal → Bool
  | YVal.s k => k == "versions"
  | _ => false

/-- Replace the value stored under an existing versions key. -/
def amSetRep : List (YVal × YVal) → YVal → List (YVal × YVal)
  | [], _ => []
  | p :: rest, v =>
    if isVersionsKey p.1 then (YVal.s "versions", v) :: amSetRep rest v
    else p :: amSetRep rest v

/-- Go map assignment spec[versions] = v on an arbitrary-keyed map. -/
def amSetVersions (m : List (YVal × YVal)) (v : YVal) : List (YVal × YVal) :=
  if m.any (fun p => isVersionsKey p.1) then amSetRep m v
  else m ++ [(YVal.s "versions", v)]

/-- The CustomResourceDefinition scrub in cleanupManifests: empty the
spec.versions sequence when spec is a mapping of either key type, then
delete the status key. -/
def scrubCRD (manifest : YMap) : YMap :=
  let manifest :=
    match ymGet manifest "spec" with
    | some (YVal.smap sm) => ymSet manifest "spec" (YVal.smap (ymSet sm "versions" (YVal.arr [])))
    | some (YVal.amap am) => ymSet manifest "spec" (YVal.amap (amSetVersions am (YVal.arr [])))
    | _ => manifest
  ymDel manifest "status"

/-- The kind of a decoded document, when present as a string
(manifest["kind"].(string) in the source). -/
def kindOf (m : YMap) : Option String :=
  match ymGet m "kind" with
  | some (YVal.s k) => some k
  | _ => none

/-- The decode-process loop of cleanupManifests over the stream of
Decode results: skip nil documents, fail on decode errors and on
documents without a string kind, keep CustomResourceDefinition (after
scrubbing), Service and Deployment, drop everything else, marshalling
each kept document. -/
def processDocs (L : YamlLib) : List DocRes → Except String (List Str)
  | [] => .ok []
  | DocRes.emptyDoc :: rest => processDocs L rest
  | DocRes.errDoc :: _ => .error "failed to decode manifest"
  | DocRes.mapDoc m :: rest =>
    match kindOf m with
    | none => .error "kind is missing from manifest"
    | some kind =>
      if kind = "CustomResourceDefinition" then
        match L.marshal (scrubCRD m) with
        | .error e => .error "failed to marshal manifest"
        | .ok y =>
          match processDocs L rest with
          | .error e => .error e
          | .ok rest' => .ok (y :: rest')
      else if kind = "Service" ∨ kind = "Deployment" then
        match L.marshal m with
        | .error e => .error "failed to marshal manifest"
        | .ok y =>
          match processDocs L rest with
          | .error e => .error e
          | .ok rest' => .ok (y :: rest')
      else processDocs L rest

/-- The sentinel version the normalizer substitutes for the real one
(dummyVersion in the source). -/
def dummyVersion : Str := str "v99.99.99"

/-- The document separator used when joining kept documents. -/
def docSep : Str := str "\n---\n"

/-- First trimming loop of cleanupManifests: while the bytes start with
a newline or end with newline-dashes, trim one of each. Fuelled; every
iteration that fires shortens the string. -/
def goTrim1F : Nat → Str → Str
  | 0, m => m
  | Nat.succ f, m =>
    if strHasPre m (str "\n") || strHasSuf m (str "\n---") then
      goTrim1F f (strDropSuf (strDropPre m (str "\n")) (str "\n---"))
    else m

/-- Second trimming loop of cleanupManifests, mirrored. -/
def goTrim2F : Nat → Str → Str
  | 0, m => m
  | Nat.succ f, m =>
    if strHasSuf m (str "\n") || strHasPre m (str "\n---") then
      goTrim2F f (strDropPre (strDropSuf m (str "\n")) (str "\n---"))
    else m

/-- Both trimming loops of cleanupManifests in source order. -/
def goTrim (m : Str) : Str :=
  goTrim2F (m.length + 1) (goTrim1F (m.length + 1) m)

/-- cleanupManifests: decode the multi-document stream, filter and
scrub the documents, re-serialize, join with the document separator,
replace every occurrence of the version with the sentinel, and trim
stray separators and blank lines. -/
def cleanupManifests (L : YamlLib) (manifests : Str) (version : Str) : Except String Str :=
  match L.decodeAll manifests with
  | .error e => .error "failed to decode manifest"
  | .ok docs =>
    match processDocs L docs with
    | .error e => .error e
    | .ok resources =>
      let joined := strJoin docSep resources
      .ok (goTrim (goReplaceAll joined version dummyVersion))

/-! ## The inventory store (codec) -/

structure Inventory where
  LatestVersion : Str
  Versions : List (Str × Str)
  Manifests : List (Str × Str)
deriving DecidableEq

/-- Inventory.reset. -/
def resetInv : Inventory := ⟨str "v0.0.0", [], []⟩

/-- Go map indexing on a string-to-string map modelled as an
association list with unique keys. -/
def mapGet (m : List (Str × Str)) (k : Str) : Option Str :=
  match m with
  | [] => none
  | (k', v) :: rest => if k' = k then some v else mapGet rest k

/-- Go map assignment m[k] = v. -/
def mapSet (m : List (Str × Str)) (k v : Str) : List (Str × Str) :=
  if (mapGet m k).isSome then m.map (fun p => if p.1 = k then (k, v) else p)
  else m ++ [(k, v)]

/-- The latest-version header marker. -/
def hdrMark : Str := str "# [CHK_LATEST_VERSION]: "

/-- The versions marker starting each block. -/
def verMark : Str := str "# [CHK_VERSIONS]: "

/-- The separator Inventory.read splits the file body on. -/
def sepMark : Str := str "---\n# [CHK_VERSIONS]: "

/-- The inner loop of Inventory.read over one block's comma-separated
version list: trim, canonicalize, fail on an unparsable version, map
each to the block's hash. -/
def addVersions (hash : Str) : List Str → List (Str × Str) → Except String (List (Str × Str))
  | [], vmap => .ok vmap
  | piece :: rest, vmap =>
    let version := svCanonical (goTrimSpace piece)
    if version = [] then .error "failed to parse version from manifest file"
    else addVersions hash rest (mapSet vmap version hash)

/-- One iteration of Inventory.read's block loop: skip empty blocks,
split off the version line, re-normalize the manifest bytes with the
sentinel version, hash them, record the versions, and store the
manifest under its hash when any version is known. -/
def readBlock (L : YamlLib) (inv : Inventory) (blk : Str) : Except String Inventory :=
  if blk = [] then .ok inv
  else
    match goSplitN2 blk (str "\n") with
    | [versLine, manifestPart] =>
      let versions := goTrimSpace versLine
      match cleanupManifests L manifestPart dummyVersion with
      | .error e => .error ("failed to cleanup manifest: " ++ e)
      | .ok manifest =>
        let hash := fnvHex manifest
        match addVersions hash (goSplit versions [',']) inv.Versions with
        | .error e => .error e
        | .ok vmap =>
          if 0 < vmap.length then
            .ok ⟨inv.LatestVersion, vmap, mapSet inv.Manifests hash manifest⟩
          else .ok ⟨inv.LatestVersion, vmap, inv.Manifests⟩
    | _ => .error "failed to read versions from manifest file"

def readBlocks (L : YamlLib) : Inventory → List Str → Except String Inventory
  | inv, [] => .ok inv
  | inv, b :: bs =>
    match readBlock L inv b with
    | .error e => .error e
    | .ok inv' => readBlocks L inv' bs

/-- Inventory.read on file contents: parse the canonical latest version
from the first line, then process each block split on the versions
marker. (File-system access is abstracted to passing the contents.) -/
def invRead (L : YamlLib) (contents : Str) : Except String Inventory :=
  match goSplitN2 contents (str "\n") with
  | [first, rest] =>
    let latest := svCanonical (strDropPre (goTrimSpace first) hdrMark)
    if latest = [] then .error "failed to parse latest version from first line in manifest file"
    else readBlocks L ⟨latest, [], []⟩ (goSplit rest sepMark)
  | _ => .error "failed read latest version from first line in manifest file"

/-- The versions of Inventory.Versions mapping to a given hash, in map
order (the write loop's inner collection). -/
def groupVersions (versions : List (Str × Str)) (hash : Str) : List Str :=
  versions.filterMap (fun p => if p.2 = hash then some p.1 else none)

/-- Insertion step of the model of slices.SortFunc(·, semver.Compare). -/
def svInsert (v : Str) : List Str → List Str
  | [] => [v]
  | e :: es => if svCompare v e < 0 then v :: e :: es else e :: svInsert v es

/-- Deterministic model of slices.SortFunc(·, semver.Compare); on the
canonical, duplicate-free version lists the source sorts, every
correct sort produces this order. -/
def svSort (l : List Str) : List Str := l.foldr svInsert []

def grpInsert (g : List Str × Str) : List (List Str × Str) → List (List Str × Str)
  | [] => [g]
  | e :: es =>
    if svCompare (g.1.headD []) (e.1.headD []) < 0 then g :: e :: es
    else e :: grpInsert g es

/-- Model of the group sort by each group's lowest version. -/
def grpSort (l : List (List Str × Str)) : List (List Str × Str) := l.foldr grpInsert []

/-- The version-manifest groups Inventory.write assembles: for each
stored manifest, the sorted versions sharing its hash, skipping
manifests no version references. -/
def invGroups (inv : Inventory) : List (List Str × Str) :=
  inv.Manifests.filterMap (fun p =>
    let versions := groupVersions inv.Versions p.1
    if versions = [] then none else some (svSort versions, p.2))

/-- One written block: the versions marker line, the manifest, a
separator. -/
def blockOut (g : List Str × Str) : Str :=
  verMark ++ strJoin (str ", ") g.1 ++ str "\n" ++ g.2 ++ str "\n---\n"

/-- Inventory.write: header line, then each group ordered by its lowest
version as a versions marker line followed by the manifest and a
separator. Returns the file bytes. -/
def invWrite (inv : Inventory) : Str :=
  hdrMark ++ inv.LatestVersion ++ str "\n---\n" ++
    ((grpSort (invGroups inv)).map blockOut).flatten

/-! ## The release source adapter (listVersions) -/

def minVersion : Str := str "v1.0.0"

/-- Insertion into the set of collected versions (Go map-as-set). -/
def versAdd (acc : List Str) (v : Str) : List Str :=
  if v ∈ acc then acc else acc ++ [v]

/-- The line loop of listVersions over git ls-remote output: skip empty
lines, take the tag after refs/tags/, skip non-semver tags and tags
outside [minVersion, maxVersion], fail on a line that does not split
into exactly two parts on the tag marker. -/
def listVersionsLines (maxVersion : Str) : List Str → List Str → Except String (List Str)
  | acc, [] => .ok acc
  | acc, line :: rest =>
    if line = [] then listVersionsLines maxVersion acc rest
    else
      match goSplit line (str "refs/tags/") with
      | [_, tagPart] =>
        let version := svCanonical tagPart
        if version = [] then listVersionsLines maxVersion acc rest
        else if svCompare version minVersion < 0 then listVersionsLines maxVersion acc rest
        else if 0 < svCompare version maxVersion then listVersionsLines maxVersion acc rest
        else listVersionsLines maxVersion (versAdd acc version) rest
      | _ => .error "unexpected output from git command"

/-- listVersions: run the tag listing (its outcome is an input here)
and parse it. -/
def listVersions (gitResult : Except String Str) (maxVersion : Str) : Except String (List Str) :=
  match gitResult with
  | .error e => .error ("failed to list tags: " ++ e)
  | .ok out => listVersionsLines maxVersion [] (goSplit out (str "\n"))

/-! ## The compile driver (main) -/

/-- The network and subprocess world main interacts with: the git tag
listing's outcome and each version's manifest download outcome. -/
structure Oracle where
  git : Except String Str
  download : Str → Except String Str

/-- Loading the inventory at the start of main: a failed read falls
back to a reset (empty) inventory. The file system is the optional
contents of the single inventory file. -/
def loadedInv (L : YamlLib) (fs : Option Str) : Inventory :=
  match fs with
  | none => resetInv
  | some c =>
    match invRead L c with
    | .ok inv => inv
    | .error _ => resetInv

/-- The work set: remote versions not in the inventory, or all of them
under force. -/
def worklist (inv : Inventory) (remote : List Str) (force : Bool) : List Str :=
  remote.filter (fun v => (mapGet inv.Versions v).isNone || force)

/-- One fetch-and-normalize unit of work, with main's error wrapping. -/
def unitRes (L : YamlLib) (O : Oracle) (v : Str) : Except String Str :=
  match O.download v with
  | .error e => .error ("error downloading CRD for version " ++ String.mk v ++ ": " ++ e)
  | .ok raw =>
    match cleanupManifests L raw v with
    | .error e => .error ("error cleaning up manifests for version " ++ String.mk v ++ ": " ++ e)
    | .ok m => .ok m

/-- The first failure among the units (the error errgroup.Wait
reports). -/
def firstErr : List (Str × Except String Str) → Option String
  | [] => none
  | (_, Except.error e) :: _ => some e
  | (_, Except.ok _) :: rest => firstErr rest

/-- The merge loop over the results channel: record each version's
hash and store the normalized manifest under it. -/
def mergeResults : Inventory → List (Str × Except String Str) → Inventory
  | inv, [] => inv
  | inv, (v, Except.ok m) :: rest =>
    mergeResults ⟨inv.LatestVersion, mapSet inv.Versions v (fnvHex m),
      mapSet inv.Manifests (fnvHex m) m⟩ rest
  | inv, (_, Except.error _) :: rest => mergeResults inv rest

/-- The per-version fetch-and-normalize units main launches, paired
with their outcomes. -/
def compileUnits (L : YamlLib) (O : Oracle) (inv : Inventory) (remote : List Str)
    (force : Bool) : List (Str × Except String Str) :=
  (worklist inv remote force).map (fun v => (v, unitRes L O v))

/-- The fetch, merge and write phase of main, entered after the
short-circuit check and a successful version listing. -/
def compileFetch (L : YamlLib) (O : Oracle) (fs : Option Str) (inv : Inventory)
    (maxVersion : Str) (force : Bool) (remote : List Str) :
    Option Str × Except String String :=
  match firstErr (compileUnits L O inv remote force) with
  | some e => (fs, Except.error ("Error downloading manifests: " ++ e))
  | none =>
    let merged := mergeResults inv (compileUnits L O inv remote force)
    (some (invWrite ⟨maxVersion, merged.Versions, merged.Manifests⟩),
      Except.ok ("Updated inventory to version " ++ String.mk maxVersion))

/-- main: read (or reset) the inventory, short-circuit when the loaded
latest version already equals the requested maximum and force is off,
list remote versions, fetch and normalize the work set, and only when
every unit succeeded merge and write the new file; the returned pair is
the file state after the run and the process outcome. -/
def compile (L : YamlLib) (O : Oracle) (fs : Option Str) (maxVersion : Str) (force : Bool) :
    Option Str × Except String String :=
  if (loadedInv L fs).LatestVersion = maxVersion ∧ force = false then
    (fs, Except.ok ("Version " ++ String.mk maxVersion ++ " is already the latest version"))
  else
    match listVersions O.git maxVersion with
    | Except.error e => (fs, Except.error ("Error listing versions: " ++ e))
    | Except.ok remote => compileFetch L O fs (loadedInv L fs) maxVersion force remote

/-! ## The version detector (spec-modelled interface) -/

structure DetectionResult where
  Detected : Str
  Candidates : List Str
deriving DecidableEq

/-- Modelled from the spec: resolution of a normalized query against
the catalog. The candidates are every catalog version sharing the
query's fingerprint; exactly one candidate → that version detected
unambiguously, several → the full candidate set (ambiguous), none →
unknown (empty result). -/
def detectRes (inv : Inventory) (canon : Str) : DetectionResult :=
  match groupVersions inv.Versions (fnvHex canon) with
  | [v] => ⟨v, [v]⟩
  | cands => ⟨[], cands⟩

/-- Modelled from the spec: the version detector implementation
(internal/versionchecker, spec section 4.5) is not among the provided
source files — only its test harness is. Per the spec, detection
normalizes the observed resources with the fixed sentinel version,
hashes the normalized bytes to a fingerprint and resolves it against
the loaded inventory. -/
def detect (L : YamlLib) (inv : Inventory) (queryBytes : Str) : Except String DetectionResult :=
  match cleanupManifests L queryBytes dummyVersion with
  | Except.error e => Except.error e
  | Except.ok canon => Except.ok (detectRes inv canon)

/-! ## Spec-side descriptions and concrete library instances -/

/-- The spec's description of document selection (spec section 4.1):
retain exactly CustomResourceDefinition (scrubbed), Service and
Deployment documents, in input order; everything else is dropped. -/
def specSelect : DocRes → Option YMap
  | DocRes.mapDoc m =>
    match kindOf m with
    | none => none
    | some k =>
      if k = "CustomResourceDefinition" then some (scrubCRD m)
      else if k = "Service" ∨ k = "Deployment" then some m
      else none
  | _ => none

/-- Marshalling with the loop's error wrapping, for stating the loop
as a map over the selected documents. -/
def specMarshal (L : YamlLib) (m : YMap) : Except String Str :=
  match L.marshal m with
  | Except.error _ => Except.error "failed to marshal manifest"
  | Except.ok y => Except.ok y

/-- A document the loop accepts: empty, or a mapping with a string
kind. -/
def goodDocB : DocRes → Bool
  | DocRes.emptyDoc => true
  | DocRes.errDoc => false
  | DocRes.mapDoc m => (kindOf m).isSome

/-- A document that is fatal to the whole normalization: a decode
error, or a mapping without a string kind. -/
def badDocB : DocRes → Bool
  | DocRes.emptyDoc => false
  | DocRes.errDoc => true
  | DocRes.mapDoc m => !(kindOf m).isSome

/-- Lookup of the versions entry in an arbitrary-keyed map. -/
def amGetVersions (m : List (YVal × YVal)) : Option YVal :=
  match m with
  | [] => none
  | (k, v) :: rest => if isVersionsKey k then some v else amGetVersions rest

def svcDoc : YMap := [("kind", YVal.s "Service")]

def depDoc : YMap := [("kind", YVal.s "Deployment")]

/-- A concrete yaml.v2 instance on the handful of byte strings the
witnesses exercise, behaving exactly as the real decoder and
marshaller do on those inputs. -/
def toyLib : YamlLib where
  decodeAll := fun s =>
    if s = [] then Except.ok []
    else if s = str "kind: Service" then Except.ok [DocRes.mapDoc svcDoc]
    else if s = str "kind: Service\n" then Except.ok [DocRes.mapDoc svcDoc]
    else if s = str "kind: Service\n---\n" then Except.ok [DocRes.mapDoc svcDoc, DocRes.emptyDoc]
    else if s = str "kind: Deployment" then Except.ok [DocRes.mapDoc depDoc]
    else if s = str "kind: Deployment\n" then Except.ok [DocRes.mapDoc depDoc]
    else if s = str "kind: Deployment\n---\n" then Except.ok [DocRes.mapDoc depDoc, DocRes.emptyDoc]
    else Except.error "unsupported input"
  marshal := fun m =>
    match m with
    | [("kind", YVal.s "Service")] => Except.ok (str "kind: Service\n")
    | [("kind", YVal.s "Deployment")] => Except.ok (str "kind: Deployment\n")
    | _ => Except.error "unsupported document"

/-- A concrete yaml.v2 instance around a version string that collides
with manifest structure (the word kind), again matching what the real
decoder does on these exact bytes. -/
def colLib : YamlLib where
  decodeAll := fun s =>
    if s = str "kind: Service\n" then Except.ok [DocRes.mapDoc svcDoc]
    else if s = str "v99.99.99: Service" then
      Except.ok [DocRes.mapDoc [("v99.99.99", YVal.s "Service")]]
    else Except.error "unsupported input"
  marshal := fun m =>
    match m with
    | [("kind", YVal.s "Service")] => Except.ok (str "kind: Service\n")
    | _ => Except.error "unsupported document"

def stampedDoc (img note : String) : YMap :=
  [("image", YVal.s img), ("kind", YVal.s "Service"), ("note", YVal.s note)]

/-- A concrete yaml.v2 instance for stampings of two structural
manifests: one whose fixed note field happens to equal the second
version string, and one whose note field is neutral. -/
def verLib : YamlLib where
  decodeAll := fun s =>
    if s = str "image: reg/ctl:v1.0.0\nkind: Service\nnote: v2.0.0\n" then
      Except.ok [DocRes.mapDoc (stampedDoc "reg/ctl:v1.0.0" "v2.0.0")]
    else if s = str "image: reg/ctl:v2.0.0\nkind: Service\nnote: v2.0.0\n" then
      Except.ok [DocRes.mapDoc (stampedDoc "reg/ctl:v2.0.0" "v2.0.0")]
    else if s = str "image: reg/ctl:v1.0.0\nkind: Service\nnote: fixed\n" then
      Except.ok [DocRes.mapDoc (stampedDoc "reg/ctl:v1.0.0" "fixed")]
    else if s = str "image: reg/ctl:v3.0.0\nkind: Service\nnote: fixed\n" then
      Except.ok [DocRes.mapDoc (stampedDoc "reg/ctl:v3.0.0" "fixed")]
    else Except.error "unsupported input"
  marshal := fun m =>
    match m with
    | [("image", YVal.s img), ("kind", YVal.s "Service"), ("note", YVal.s note)] =>
      Except.ok (str "image: " ++ img.data ++ str "\nkind: Service\nnote: " ++ note.data ++ str "\n")
    | _ => Except.error "unsupported document"

/-! ## Well-formed catalogs (the shape Inventory.write produces) -/

/-- An inventory assembled from version-sorted fingerprint groups —
the in-memory shape of a well-formed catalog: each group's versions
map to the FNV hash of its manifest, and each manifest is stored once
under its hash. -/
def wfInv (lv : Str) (gs : List (List Str × Str)) : Inventory :=
  ⟨lv, (gs.map (fun g => g.1.map (fun v => (v, fnvHex g.2)))).flatten,
    gs.map (fun g => (fnvHex g.2, g.2))⟩

/-- The version-to-hash pairs contributed by a group list. -/
def vsOf (gs : List (List Str × Str)) : List (Str × Str) :=
  (gs.map (fun g => g.1.map (fun v => (v, fnvHex g.2)))).flatten

/-- The piece the read-side split produces for a non-final block. -/
def pieceShort (g : List Str × Str) : Str :=
  strJoin (str ", ") g.1 ++ str "\n" ++ g.2 ++ str "\n"

/-- The piece the read-side split produces for the final block. -/
def pieceLast (g : List Str × Str) : Str :=
  strJoin (str ", ") g.1 ++ str "\n" ++ g.2 ++ str "\n---\n"

/-- The nonempty pieces the read-side split produces for a whole
group list. -/
def wfPieces : List (List Str × Str) → List Str
  | [] => []
  | [g] => [pieceLast g]
  | g :: g' :: t => pieceShort g :: wfPieces (g' :: t)

/-- The written body after the first separator, as one string. -/
def auxStr : List (List Str × Str) → Str
  | [] => []
  | [g] => pieceLast g
  | g :: g' :: t => pieceShort g ++ sepMark ++ auxStr (g' :: t)

/-- Decoration of a version list as the comma-split read path sees
it: every piece after the first carries the space left over from the
comma-space join. -/
def decorate (withSpace : Bool) : List Str → List Str
  | [] => []
  | v :: t => (if withSpace then ' ' :: v else v) :: decorate true t

/-- Side conditions on one stored group under which the codec round
trips: a nonempty, strictly version-sorted, canonical version list
whose entries survive the join/split/trim cycle, a manifest that
re-normalizes to itself with either read-side tail, and no occurrence
of the block marker that would derail the split. -/
def wfGroup (L : YamlLib) (g : List Str × Str) : Prop :=
  g.1 ≠ [] ∧
  (∀ v ∈ g.1, svCanonical v = v ∧ v ≠ [] ∧ occursIn [','] v = false ∧ ('\n' ∉ v) ∧
    goTrimSpace v = v ∧ goTrimSpace (' ' :: v) = v) ∧
  List.Chain' (fun a b => svCompare a b < 0) g.1 ∧
  goTrimSpace (strJoin (str ", ") g.1) = strJoin (str ", ") g.1 ∧
  cleanupManifests L (g.2 ++ str "\n") dummyVersion = Except.ok g.2 ∧
  cleanupManifests L (g.2 ++ str "\n---\n") dummyVersion = Except.ok g.2 ∧
  occursIn sepMark (pieceShort g ++ sepMark.dropLast) = false ∧
  occursIn sepMark (pieceLast g) = false

/-- A well-formed catalog: at least one group, a canonical latest
version, well-formed groups, globally distinct fingerprints and
versions, and groups strictly ordered by their lowest version. -/
def wfCatalog (L : YamlLib) (lv : Str) (gs : List (List Str × Str)) : Prop :=
  gs ≠ [] ∧
  lv ≠ [] ∧ svCanonical lv = lv ∧ ('\n' ∉ lv) ∧
  goTrimSpace (hdrMark ++ lv) = hdrMark ++ lv ∧
  (∀ g ∈ gs, wfGroup L g) ∧
  (gs.map (fun g => fnvHex g.2)).Nodup ∧
  ((gs.map Prod.fst).flatten).Nodup ∧
  List.Chain' (fun g1 g2 => svCompare (g1.1.headD []) (g2.1.headD []) < 0) gs

/-- A concrete two-group catalog over the toy yaml instance. -/
def rtGroups : List (List Str × Str) :=
  [([str "v1.0.0"], str "kind: Service"),
   ([str "v1.1.0", str "v1.2.0"], str "kind: Deployment")]

/-- The spec-side effect of the loop: marshal the selected documents
in order, stopping at the first failure. -/
def exceptMapM (f : YMap → Except String Str) : List YMap → Except String (List Str)
  | [] => Except.ok []
  | x :: t =>
    match f x with
    | Except.error e => Except.error e
    | Except.ok y =>
      match exceptMapM f t with
      | Except.error e => Except.error e
      | Except.ok ys => Except.ok (y :: ys)

/-- A concrete two-versions-one-fingerprint catalog for exercising the
detector. -/
def exInv : Inventory :=
  ⟨str "v1.9.1",
    [(str "v1.9.0", fnvHex (str "kind: Service")),
     (str "v1.9.1", fnvHex (str "kind: Service"))], []⟩

/-- The published tag on one line of git ls-remote output, per the
spec: the part after the refs/tags/ marker (and the line must split
into exactly one prefix and one tag). -/
def specTagOf (line : Str) : Option Str :=
  match goSplit line (str "refs/tags/") with
  | [_, tag] => some tag
  | _ => none

/-- The spec-side condition for a line to contribute version v: the
line is nonempty, carries a tag whose semver canonicalization is v,
and v is valid and within the version bounds the adapter applies. -/
def specTagInRange (maxVersion line v : Str) : Prop :=
  line ≠ [] ∧ ∃ tag, specTagOf line = some tag ∧ svCanonical tag = v ∧ v ≠ [] ∧
    ¬ svCompare v minVersion < 0 ∧ ¬ 0 < svCompare v maxVersion

/-- A world whose tag listing and downloads succeed trivially. -/
def okOracle : Oracle := ⟨Except.ok [], fun _ => Except.ok []⟩

/-- A world whose tag listing and downloads fail. -/
def errOracle : Oracle := ⟨Except.error "boom", fun _ => Except.error "down"⟩

/-- A world listing exactly the tag v1.0.0 whose download fails. -/
def failOracle : Oracle :=
  ⟨Except.ok (str "x\trefs/tags/v1.0.0"), fun _ => Except.error "down"⟩

/-! ## Properties of the byte-string operations -/

theorem isPre_iff (pat s : Str) : pat.isPrefixOf s = true ↔ ∃ t, s = pat ++ t := by
  induction pat generalizing s with
  | nil => exact ⟨fun _ => ⟨s, rfl⟩, fun _ => by cases s <;> rfl⟩
  | cons a as ih =>
    cases s with
    | nil =>
      refine ⟨fun h => absurd h (by simp [List.isPrefixOf]), ?_⟩
      rintro ⟨t, h⟩
      exact absurd h (by simp)
    | cons b bs =>
      constructor
      · intro h
        simp only [List.isPrefixOf, Bool.and_eq_true, beq_iff_eq] at h
        obtain ⟨t, rfl⟩ := (ih bs).mp h.2
        exact ⟨t, by rw [← h.1]; rfl⟩
      · rintro ⟨t, h⟩
        rw [List.cons_append] at h
        injection h with h1 h2
        simp only [List.isPrefixOf, Bool.and_eq_true, beq_iff_eq]
        exact ⟨h1.symm, (ih bs).mpr ⟨t, h2⟩⟩

theorem isPre_append (pat t : Str) : pat.isPrefixOf (pat ++ t) = true :=
  (isPre_iff pat (pat ++ t)).mpr ⟨t, rfl⟩

theorem isPre_of_append_ext {pat x y : Str} (h : pat.isPrefixOf (x ++ y) = true)
    (hl : pat.length ≤ x.length) : pat.isPrefixOf x = true := by
  obtain ⟨t, ht⟩ := (isPre_iff _ _).mp h
  apply (isPre_iff _ _).mpr
  refine ⟨x.drop pat.length, ?_⟩
  have hx : x.take pat.length = pat := by
    have h1 : (x ++ y).take pat.length = x.take pat.length :=
      List.take_append_of_le_length hl
    rw [ht, List.take_left] at h1
    exact h1.symm
  conv_lhs => rw [← List.take_append_drop pat.length x]
  rw [hx]

theorem occursIn_eq (pat : Str) (c : Char) (rest : Str) :
    occursIn pat (c :: rest) = (pat.isPrefixOf (c :: rest) || occursIn pat rest) := rfl

theorem occursIn_append_left {pat a : Str} (hpat : pat ≠ []) (b : Str)
    (h : occursIn pat (a ++ b) = false) : occursIn pat a = false := by
  induction a with
  | nil =>
    cases pat with
    | nil => exact absurd rfl hpat
    | cons p ps => rfl
  | cons c a' ih =>
    rw [List.cons_append] at h
    rw [occursIn_eq] at h ⊢
    rcases Bool.or_eq_false_iff.mp h with ⟨h1, h2⟩
    apply Bool.or_eq_false_iff.mpr
    refine ⟨?_, ih h2⟩
    cases hp : (pat.isPrefixOf (c :: a') : Bool) with
    | false => rfl
    | true =>
      obtain ⟨t, ht⟩ := (isPre_iff _ _).mp hp
      have hpre : pat.isPrefixOf (c :: (a' ++ b)) = true := by
        apply (isPre_iff _ _).mpr
        exact ⟨t ++ b, by rw [show c :: (a' ++ b) = (c :: a') ++ b from rfl, ht]; simp⟩
      rw [hpre] at h1
      exact h1

theorem consHead_ne_nil (c : Char) (l : List Str) : consHead c l ≠ [] := by
  cases l <;> simp [consHead]

theorem goSplitF_ne_nil (sep : Str) : ∀ f s, goSplitF sep f s ≠ [] := by
  intro f
  induction f with
  | zero => intro s; cases s <;> simp [goSplitF]
  | succ g ih =>
    intro s
    cases s with
    | nil => simp [goSplitF]
    | cons c rest =>
      by_cases hp : sep.isPrefixOf (c :: rest) = true
      · simp [goSplitF, hp]
      · simp only [goSplitF, hp, if_false, Bool.false_eq_true, if_neg]
        exact consHead_ne_nil _ _

theorem goSplitF_nil (sep : Str) (f : Nat) : goSplitF sep f [] = [[]] := by
  cases f <;> simp [goSplitF]

theorem goSplitF_succ_pos {sep : Str} (f : Nat) {c : Char} {rest : Str}
    (hp : sep.isPrefixOf (c :: rest) = true) :
    goSplitF sep (Nat.succ f) (c :: rest) = [] :: goSplitF sep f ((c :: rest).drop sep.length) := by
  simp [goSplitF, hp]

theorem goSplitF_succ_neg {sep : Str} (f : Nat) {c : Char} {rest : Str}
    (hp : ¬ sep.isPrefixOf (c :: rest) = true) :
    goSplitF sep (Nat.succ f) (c :: rest) = consHead c (goSplitF sep f rest) := by
  simp [goSplitF, hp]

theorem sep_len_pos {sep : Str} (hsep : sep ≠ []) : 1 ≤ sep.length := by
  cases sep with
  | nil => exact absurd rfl hsep
  | cons _ _ => simp

theorem goSplitF_fuel (sep : Str) (hsep : sep ≠ []) :
    ∀ f g s, s.length ≤ f → s.length ≤ g → goSplitF sep f s = goSplitF sep g s := by
  intro f
  induction f with
  | zero =>
    intro g s hf hg
    have hs : s = [] := List.length_eq_zero.mp (Nat.le_zero.mp hf)
    subst hs
    rw [goSplitF_nil, goSplitF_nil]
  | succ f' ih =>
    intro g s hf hg
    cases s with
    | nil => rw [goSplitF_nil, goSplitF_nil]
    | cons c rest =>
      cases g with
      | zero => simp at hg
      | succ g' =>
        have hf' : rest.length ≤ f' := by simpa [Nat.succ_le_succ_iff] using hf
        have hg' : rest.length ≤ g' := by simpa [Nat.succ_le_succ_iff] using hg
        have hs1 : 1 ≤ sep.length := sep_len_pos hsep
        by_cases hp : sep.isPrefixOf (c :: rest) = true
        · have hd1 : ((c :: rest).drop sep.length).length ≤ f' := by
            simp only [List.length_drop, List.length_cons]
            omega
          have hd2 : ((c :: rest).drop sep.length).length ≤ g' := by
            simp only [List.length_drop, List.length_cons]
            omega
          rw [goSplitF_succ_pos f' hp, goSplitF_succ_pos g' hp, ih g' _ hd1 hd2]
        · rw [goSplitF_succ_neg f' hp, goSplitF_succ_neg g' hp, ih g' rest hf' hg']

theorem goSplit_nil {sep : Str} (hsep : sep ≠ []) : goSplit [] sep = [[]] := by
  unfold goSplit
  rw [if_neg hsep, goSplitF_nil]

theorem goSplit_pos {sep : Str} (hsep : sep ≠ []) {c : Char} {rest : Str}
    (hp : sep.isPrefixOf (c :: rest) = true) :
    goSplit (c :: rest) sep = [] :: goSplit ((c :: rest).drop sep.length) sep := by
  have hs1 : 1 ≤ sep.length := sep_len_pos hsep
  unfold goSplit
  rw [if_neg hsep, if_neg hsep]
  rw [show (c :: rest).length = Nat.succ rest.length from rfl, goSplitF_succ_pos _ hp]
  congr 1
  apply goSplitF_fuel sep hsep
  · simp only [List.length_drop, List.length_cons]
    omega
  · exact Nat.le_refl _

theorem goSplit_neg {sep : Str} (hsep : sep ≠ []) {c : Char} {rest : Str}
    (hp : ¬ sep.isPrefixOf (c :: rest) = true) :
    goSplit (c :: rest) sep = consHead c (goSplit rest sep) := by
  unfold goSplit
  rw [if_neg hsep, if_neg hsep]
  rw [show (c :: rest).length = Nat.succ rest.length from rfl, goSplitF_succ_neg _ hp]

theorem goSplit_ne_nil {sep : Str} (hsep : sep ≠ []) (s : Str) : goSplit s sep ≠ [] := by
  unfold goSplit
  rw [if_neg hsep]
  exact goSplitF_ne_nil sep s.length s

theorem goSplit_sep_cons {sep : Str} (hsep : sep ≠ []) (b : Str) :
    goSplit (sep ++ b) sep = [] :: goSplit b sep := by
  cases hs : sep with
  | nil => exact absurd hs hsep
  | cons c t =>
    rw [← hs]
    have hcons : sep ++ b = c :: (t ++ b) := by rw [hs]; rfl
    rw [hcons, goSplit_pos hsep (by rw [← hcons]; exact isPre_append _ _), ← hcons,
      List.drop_left]

theorem goSplit_no_occur {sep : Str} (hsep : sep ≠ []) {a : Str}
    (h : occursIn sep a = false) : goSplit a sep = [a] := by
  induction a with
  | nil => exact goSplit_nil hsep
  | cons c rest ih =>
    rw [occursIn_eq] at h
    rcases Bool.or_eq_false_iff.mp h with ⟨h1, h2⟩
    rw [goSplit_neg hsep (by rw [h1]; simp), ih h2, consHead]

theorem goSplit_append {sep : Str} (hsep : sep ≠ []) {a : Str} (b : Str)
    (hno : occursIn sep (a ++ sep.dropLast) = false) :
    goSplit (a ++ (sep ++ b)) sep = a :: goSplit b sep := by
  induction a with
  | nil => simpa using goSplit_sep_cons hsep b
  | cons c a' ih =>
    have hsd : sep.dropLast ++ [sep.getLast hsep] = sep := List.dropLast_append_getLast hsep
    rw [List.cons_append] at hno
    rw [occursIn_eq] at hno
    rcases Bool.or_eq_false_iff.mp hno with ⟨h1, h2⟩
    have hp : sep.isPrefixOf (c :: (a' ++ (sep ++ b))) = false := by
      cases hp : (sep.isPrefixOf (c :: (a' ++ (sep ++ b))) : Bool) with
      | false => rfl
      | true =>
        exfalso
        have hre : c :: (a' ++ (sep ++ b)) = (c :: (a' ++ sep.dropLast)) ++ ([sep.getLast hsep] ++ b) := by
          conv_lhs => rw [← hsd]
          simp [List.append_assoc]
        have hlen : sep.length ≤ (c :: (a' ++ sep.dropLast)).length := by
          simp only [List.length_cons, List.length_append, List.length_dropLast]
          have := sep_len_pos hsep
          omega
        have hpre := isPre_of_append_ext (by rw [← hre]; exact hp) hlen
        rw [hpre] at h1
        exact absurd h1 (by simp)
    rw [List.cons_append, goSplit_neg hsep (by rw [hp]; simp), ih h2]
    rfl

theorem strJoin_two (sep x : Str) {l : List Str} (h : l ≠ []) :
    strJoin sep (x :: l) = x ++ sep ++ strJoin sep l := by
  cases l with
  | nil => exact absurd rfl h
  | cons y t => rfl

theorem strJoin_consHead (sep : Str) (c : Char) {l : List Str} (h : l ≠ []) :
    strJoin sep (consHead c l) = c :: strJoin sep l := by
  cases l with
  | nil => exact absurd rfl h
  | cons p ps =>
    cases ps with
    | nil => rfl
    | cons q t => simp [consHead, strJoin]

theorem strJoin_goSplitF {sep : Str} (hsep : sep ≠ []) :
    ∀ f s, strJoin sep (goSplitF sep f s) = s := by
  intro f
  induction f with
  | zero =>
    intro s
    cases s with
    | nil => rfl
    | cons c rest => rfl
  | succ g ih =>
    intro s
    cases s with
    | nil => rfl
    | cons c rest =>
      by_cases hp : sep.isPrefixOf (c :: rest) = true
      · obtain ⟨t, ht⟩ := (isPre_iff _ _).mp hp
        have e1 : goSplitF sep (Nat.succ g) (c :: rest)
            = [] :: goSplitF sep g ((c :: rest).drop sep.length) := by
          simp [goSplitF, hp]
        rw [e1, strJoin_two sep [] (goSplitF_ne_nil sep g _), ih]
        rw [ht, List.drop_left, List.nil_append]
      · have e1 : goSplitF sep (Nat.succ g) (c :: rest)
            = consHead c (goSplitF sep g rest) := by
          simp [goSplitF, hp]
        rw [e1, strJoin_consHead sep c (goSplitF_ne_nil sep g rest), ih]

theorem strJoin_goSplit {sep : Str} (hsep : sep ≠ []) (s : Str) :
    strJoin sep (goSplit s sep) = s := by
  simp only [goSplit, hsep, if_neg, if_false]
  exact strJoin_goSplitF hsep s.length s

theorem goReplF_join {old : Str} (hold : old ≠ []) (new : Str) :
    ∀ f s, goReplF old new f s = strJoin new (goSplitF old f s) := by
  intro f
  induction f with
  | zero =>
    intro s
    cases s with
    | nil => rfl
    | cons c rest => rfl
  | succ g ih =>
    intro s
    cases s with
    | nil => rfl
    | cons c rest =>
      by_cases hp : old.isPrefixOf (c :: rest) = true
      · have e1 : goReplF old new (Nat.succ g) (c :: rest)
            = new ++ goReplF old new g ((c :: rest).drop old.length) := by
          simp [goReplF, hp]
        have e2 : goSplitF old (Nat.succ g) (c :: rest)
            = [] :: goSplitF old g ((c :: rest).drop old.length) := by
          simp [goSplitF, hp]
        rw [e1, e2, strJoin_two new [] (goSplitF_ne_nil old g _), ih, List.nil_append]
      · have e1 : goReplF old new (Nat.succ g) (c :: rest)
            = c :: goReplF old new g rest := by
          simp [goReplF, hp]
        have e2 : goSplitF old (Nat.succ g) (c :: rest)
            = consHead c (goSplitF old g rest) := by
          simp [goSplitF, hp]
        rw [e1, e2, strJoin_consHead new c (goSplitF_ne_nil old g rest), ih]

theorem goReplaceAll_join {old : Str} (hold : old ≠ []) (s new : Str) :
    goReplaceAll s old new = strJoin new (goSplit s old) := by
  simp only [goReplaceAll, goSplit, hold, if_neg, if_false]
  exact goReplF_join hold new s.length s

theorem flatten_map_singleton (s : Str) : (s.map (fun c => [c])).flatten = s := by
  induction s with
  | nil => rfl
  | cons c rest ih => simp [ih]

theorem goReplaceAll_self (s p : Str) : goReplaceAll s p p = s := by
  by_cases hp : p = []
  · subst hp
    simp only [goReplaceAll, if_pos rfl, List.nil_append]
    exact flatten_map_singleton s
  · rw [goReplaceAll_join hp, strJoin_goSplit hp]

/-- The substitution round trip used for version invariance: replacing
the sentinel by a version and back is the identity, provided the
stamped bytes split on the version exactly as the template splits on
the sentinel (no accidental collisions). -/
theorem goReplaceAll_back {d v J : Str} (hd : d ≠ []) (hv : v ≠ [])
    (hsplit : goSplit (goReplaceAll J d v) v = goSplit J d) :
    goReplaceAll (goReplaceAll J d v) v d = J := by
  rw [goReplaceAll_join hv, hsplit]
  exact strJoin_goSplit hd J

/-! ## Properties of the document processing -/

theorem ymGet_ymDel_self (m : YMap) (k : String) : ymGet (ymDel m k) k = none := by
  induction m with
  | nil => rfl
  | cons p rest ih =>
    by_cases hk : p.1 = k
    · rw [ymDel, if_pos hk]
      exact ih
    · rw [ymDel, if_neg hk, ymGet, if_neg hk]
      exact ih

theorem ymGet_ymDel_ne {k1 k2 : String} (m : YMap) (hk : k1 ≠ k2) :
    ymGet (ymDel m k2) k1 = ymGet m k1 := by
  induction m with
  | nil => rfl
  | cons p rest ih =>
    by_cases h2 : p.1 = k2
    · have h1 : ¬ p.1 = k1 := by rw [h2]; exact fun h => hk h.symm
      rw [ymDel, if_pos h2, ymGet, if_neg h1]
      exact ih
    · by_cases h1 : p.1 = k1
      · rw [ymDel, if_neg h2, ymGet, if_pos h1, ymGet, if_pos h1]
      · rw [ymDel, if_neg h2, ymGet, if_neg h1, ymGet, if_neg h1]
        exact ih

theorem ymGet_replace (m : YMap) (k : String) (v : YVal)
    (h : (ymGet m k).isSome = true) :
    ymGet (ymSetReplace m k v) k = some v := by
  induction m with
  | nil => simp [ymGet] at h
  | cons p rest ih =>
    by_cases hk : p.1 = k
    · rw [ymSetReplace, if_pos hk, ymGet, if_pos rfl]
    · rw [ymGet, if_neg hk] at h
      rw [ymSetReplace, if_neg hk, ymGet, if_neg hk]
      exact ih h

theorem ymGet_append_right (m : YMap) (k : String) (v : YVal)
    (h : ymGet m k = none) :
    ymGet (m ++ [(k, v)]) k = some v := by
  induction m with
  | nil => simp [ymGet]
  | cons p rest ih =>
    by_cases hk : p.1 = k
    · rw [ymGet, if_pos hk] at h
      exact absurd h (by simp)
    · rw [ymGet, if_neg hk] at h
      rw [List.cons_append, ymGet, if_neg hk]
      exact ih h

theorem ymGet_ymSet_self (m : YMap) (k : String) (v : YVal) :
    ymGet (ymSet m k v) k = some v := by
  unfold ymSet
  by_cases h : (ymGet m k).isSome = true
  · rw [if_pos h]
    exact ymGet_replace m k v h
  · rw [if_neg h]
    exact ymGet_append_right m k v (Option.not_isSome_iff_eq_none.mp h)

theorem amGetVersions_rep (m : List (YVal × YVal)) (x : YVal)
    (h : m.any (fun p => isVersionsKey p.1) = true) :
    amGetVersions (amSetRep m x) = some x := by
  induction m with
  | nil => simp at h
  | cons p rest ih =>
    by_cases hp : isVersionsKey p.1 = true
    · rw [amSetRep, if_pos hp, amGetVersions, if_pos (by rfl)]
    · simp only [List.any_cons, hp, Bool.false_or] at h
      rw [amSetRep, if_neg hp, amGetVersions, if_neg hp]
      exact ih h

theorem amGetVersions_append (m : List (YVal × YVal)) (x : YVal)
    (h : m.any (fun p => isVersionsKey p.1) = false) :
    amGetVersions (m ++ [(YVal.s "versions", x)]) = some x := by
  induction m with
  | nil => rw [List.nil_append, amGetVersions, if_pos (by rfl)]
  | cons p rest ih =>
    simp only [List.any_cons, Bool.or_eq_false_iff] at h
    rw [List.cons_append, amGetVersions, if_neg (by rw [h.1]; exact fun hc => absurd hc (by simp))]
    exact ih h.2

theorem amGetVersions_amSetVersions (m : List (YVal × YVal)) (x : YVal) :
    amGetVersions (amSetVersions m x) = some x := by
  unfold amSetVersions
  by_cases h : m.any (fun p => isVersionsKey p.1) = true
  · rw [if_pos h]
    exact amGetVersions_rep m x h
  · rw [if_neg h]
    refine amGetVersions_append m x ?_
    cases hb : m.any (fun p => isVersionsKey p.1) with
    | false => rfl
    | true => exact absurd hb h

theorem scrubCRD_status (m : YMap) : ymGet (scrubCRD m) "status" = none := by
  simp only [scrubCRD]
  exact ymGet_ymDel_self _ _

theorem scrubCRD_spec_smap (m : YMap) (sm : YMap)
    (h : ymGet m "spec" = some (YVal.smap sm)) :
    ymGet (scrubCRD m) "spec"
      = some (YVal.smap (ymSet sm "versions" (YVal.arr []))) := by
  simp only [scrubCRD, h]
  rw [ymGet_ymDel_ne _ (by decide)]
  exact ymGet_ymSet_self _ _ _

theorem scrubCRD_spec_amap (m : YMap) (am : List (YVal × YVal))
    (h : ymGet m "spec" = some (YVal.amap am)) :
    ymGet (scrubCRD m) "spec"
      = some (YVal.amap (amSetVersions am (YVal.arr []))) := by
  simp only [scrubCRD, h]
  rw [ymGet_ymDel_ne _ (by decide)]
  exact ymGet_ymSet_self _ _ _

theorem processDocs_empty_cons (L : YamlLib) (ds : List DocRes) :
    processDocs L (DocRes.emptyDoc :: ds) = processDocs L ds := rfl

theorem processDocs_eq (L : YamlLib) (ds : List DocRes)
    (hgood : ∀ d ∈ ds, goodDocB d = true) :
    processDocs L ds = exceptMapM (specMarshal L) (ds.filterMap specSelect) := by
  induction ds with
  | nil => rfl
  | cons d rest ih =>
    have hd := hgood d (List.mem_cons_self d rest)
    have hrest : ∀ d' ∈ rest, goodDocB d' = true :=
      fun d' h' => hgood d' (List.mem_cons_of_mem _ h')
    cases d with
    | emptyDoc =>
      rw [processDocs_empty_cons, ih hrest]
      rfl
    | errDoc => simp [goodDocB] at hd
    | mapDoc m =>
      cases hk : kindOf m with
      | none => simp [goodDocB, hk] at hd
      | some k =>
        by_cases h1 : k = "CustomResourceDefinition"
        · subst h1
          simp only [processDocs, hk, List.filterMap_cons, specSelect, if_pos rfl]
          cases hm : L.marshal (scrubCRD m) with
          | error e => simp [exceptMapM, specMarshal, hm]
          | ok y =>
            rw [ih hrest]
            simp [exceptMapM, specMarshal, hm]
        · by_cases h23 : k = "Service" ∨ k = "Deployment"
          · simp only [processDocs, hk, List.filterMap_cons, specSelect, if_neg h1,
              if_pos h23]
            cases hm : L.marshal m with
            | error e => simp [exceptMapM, specMarshal, hm]
            | ok y =>
              rw [ih hrest]
              simp [exceptMapM, specMarshal, hm]
          · simp only [processDocs, hk, List.filterMap_cons, specSelect, if_neg h1,
              if_neg h23]
            exact ih hrest

theorem processDocs_err (L : YamlLib) (ds : List DocRes)
    (hbad : ∃ d ∈ ds, badDocB d = true) :
    ∃ e, processDocs L ds = Except.error e := by
  induction ds with
  | nil =>
    obtain ⟨d, hd, _⟩ := hbad
    exact absurd hd (List.not_mem_nil d)
  | cons d rest ih =>
    cases d with
    | emptyDoc =>
      rw [processDocs_empty_cons]
      apply ih
      obtain ⟨d', hd', hb'⟩ := hbad
      cases List.mem_cons.mp hd' with
      | inl h => subst h; simp [badDocB] at hb'
      | inr h => exact ⟨d', h, hb'⟩
    | errDoc => exact ⟨"failed to decode manifest", rfl⟩
    | mapDoc m =>
      cases hk : kindOf m with
      | none => exact ⟨"kind is missing from manifest", by simp [processDocs, hk]⟩
      | some k =>
        have hrest : ∃ d' ∈ rest, badDocB d' = true := by
          obtain ⟨d', hd', hb'⟩ := hbad
          cases List.mem_cons.mp hd' with
          | inl h => subst h; simp [badDocB, hk] at hb'
          | inr h => exact ⟨d', h, hb'⟩
        obtain ⟨e, he⟩ := ih hrest
        by_cases h1 : k = "CustomResourceDefinition"
        · subst h1
          simp only [processDocs, hk, if_pos rfl]
          cases hm : L.marshal (scrubCRD m) with
          | error e2 => exact ⟨_, rfl⟩
          | ok y =>
            rw [he]
            exact ⟨e, rfl⟩
        · by_cases h23 : k = "Service" ∨ k = "Deployment"
          · simp only [processDocs, hk, if_neg h1, if_pos h23]
            cases hm : L.marshal m with
            | error e2 => exact ⟨_, rfl⟩
            | ok y =>
              rw [he]
              exact ⟨e, rfl⟩
          · simp only [processDocs, hk, if_neg h1, if_neg h23]
            exact ⟨e, he⟩

/-! ## Claim theorems: the manifest normalizer -/

/-- C4: the normalizer is deterministic and pure — against the fixed
yaml library (itself a pure function of its input), cleanupManifests
is a function of the manifest bytes and the version string alone, so
two calls on equal inputs return byte-identical results, and the
embedding performs no I/O. -/
theorem normalize_deterministic (L : YamlLib) (b₁ b₂ v₁ v₂ : Str)
    (hb : b₁ = b₂) (hv : v₁ = v₂) :
    cleanupManifests L b₁ v₁ = cleanupManifests L b₂ v₂ := by
  subst hb
  subst hv
  rfl

theorem normalize_deterministic_witness :
    cleanupManifests toyLib (str "kind: Service\n") (str "v1.0.0")
      = cleanupManifests toyLib (str "kind: Service\n") (str "v1.0.0") :=
  normalize_deterministic toyLib _ _ _ _ rfl rfl

/-- C7: a document that fails to decode to a mapping, or decodes to a
mapping without a string kind, is fatal: the whole normalization
returns an error and produces no partial output; empty documents are
skipped without error. -/
theorem normalize_missing_kind_fatal (L : YamlLib) (b v : Str) (ds : List DocRes)
    (hdec : L.decodeAll b = Except.ok ds)
    (hbad : ∃ d ∈ ds, badDocB d = true) :
    (∃ e, cleanupManifests L b v = Except.error e) ∧
    (∀ ds', processDocs L (DocRes.emptyDoc :: ds') = processDocs L ds') := by
  refine ⟨?_, fun ds' => rfl⟩
  obtain ⟨e, he⟩ := processDocs_err L ds hbad
  exact ⟨e, by simp [cleanupManifests, hdec, he]⟩

theorem normalize_missing_kind_fatal_witness :
    (∃ e, cleanupManifests colLib (str "v99.99.99: Service") dummyVersion
      = Except.error e) ∧
    (∀ ds', processDocs colLib (DocRes.emptyDoc :: ds') = processDocs colLib ds') :=
  normalize_missing_kind_fatal colLib (str "v99.99.99: Service") dummyVersion
    [DocRes.mapDoc [("v99.99.99", YVal.s "Service")]] (by rfl)
    ⟨DocRes.mapDoc [("v99.99.99", YVal.s "Service")], by simp, by decide⟩

/-- C6: on a decodable input whose documents all carry a string kind,
the normalizer's output is exactly the kept documents —
CustomResourceDefinition (scrubbed), Service, Deployment, in input
order, everything else dropped — marshalled, joined, version-scrubbed
and trimmed; and every scrubbed CustomResourceDefinition has its
status key deleted and spec.versions emptied, whether spec is a
string-keyed or an arbitrary-keyed map. -/
theorem normalize_filters_and_scrubs (L : YamlLib) (b v : Str) (ds : List DocRes)
    (hdec : L.decodeAll b = Except.ok ds)
    (hgood : ∀ d ∈ ds, goodDocB d = true) :
    cleanupManifests L b v
      = (match exceptMapM (specMarshal L) (ds.filterMap specSelect) with
        | Except.error e => Except.error e
        | Except.ok js =>
          Except.ok (goTrim (goReplaceAll (strJoin docSep js) v dummyVersion))) ∧
    (∀ m, DocRes.mapDoc m ∈ ds → kindOf m = some "CustomResourceDefinition" →
      ymGet (scrubCRD m) "status" = none ∧
      (∀ sm, ymGet m "spec" = some (YVal.smap sm) →
        ∃ sm', ymGet (scrubCRD m) "spec" = some (YVal.smap sm') ∧
          ymGet sm' "versions" = some (YVal.arr [])) ∧
      (∀ am, ymGet m "spec" = some (YVal.amap am) →
        ∃ am', ymGet (scrubCRD m) "spec" = some (YVal.amap am') ∧
          amGetVersions am' = some (YVal.arr []))) := by
  constructor
  · simp only [cleanupManifests, hdec, processDocs_eq L ds hgood]
  · intro m hm hk
    refine ⟨scrubCRD_status m, ?_, ?_⟩
    · intro sm hsm
      exact ⟨_, scrubCRD_spec_smap m sm hsm, ymGet_ymSet_self _ _ _⟩
    · intro am ham
      exact ⟨_, scrubCRD_spec_amap m am ham, amGetVersions_amSetVersions _ _⟩

theorem normalize_filters_and_scrubs_witness :
    cleanupManifests toyLib (str "kind: Service\n") (str "v1.0.0")
      = (match exceptMapM (specMarshal toyLib) ([DocRes.mapDoc svcDoc].filterMap specSelect) with
        | Except.error e => Except.error e
        | Except.ok js =>
          Except.ok (goTrim (goReplaceAll (strJoin docSep js) (str "v1.0.0") dummyVersion))) ∧
    (∀ m, DocRes.mapDoc m ∈ [DocRes.mapDoc svcDoc] →
      kindOf m = some "CustomResourceDefinition" →
      ymGet (scrubCRD m) "status" = none ∧
      (∀ sm, ymGet m "spec" = some (YVal.smap sm) →
        ∃ sm', ymGet (scrubCRD m) "spec" = some (YVal.smap sm') ∧
          ymGet sm' "versions" = some (YVal.arr [])) ∧
      (∀ am, ymGet m "spec" = some (YVal.amap am) →
        ∃ am', ymGet (scrubCRD m) "spec" = some (YVal.amap am') ∧
          amGetVersions am' = some (YVal.arr []))) :=
  normalize_filters_and_scrubs toyLib (str "kind: Service\n") (str "v1.0.0")
    [DocRes.mapDoc svcDoc] (by rfl) (by decide)

/-- C10 amended: renormalizing the normalizer's output with the
sentinel version is the identity whenever the output re-decodes to
documents the processing loop maps to themselves (their marshalled
join trims back to the output); replacing the sentinel by itself
changes nothing, which is what lets the store's read path assign
already-canonical blocks their original fingerprint. -/
theorem normalize_idempotent_on_fixed_docs (L : YamlLib) (b v out : Str)
    (ds : List DocRes) (js : List Str)
    (h1 : cleanupManifests L b v = Except.ok out)
    (h2 : L.decodeAll out = Except.ok ds)
    (h3 : processDocs L ds = Except.ok js)
    (h4 : goTrim (strJoin docSep js) = out) :
    cleanupManifests L out dummyVersion = Except.ok out := by
  simp only [cleanupManifests, h2, h3, goReplaceAll_self, h4]

theorem normalize_idempotent_on_fixed_docs_witness :
    cleanupManifests toyLib (str "kind: Service") dummyVersion
      = Except.ok (str "kind: Service") :=
  normalize_idempotent_on_fixed_docs toyLib (str "kind: Service\n---\n") (str "v1.0.0")
    (str "kind: Service") [DocRes.mapDoc svcDoc] [str "kind: Service\n"]
    (by decide) (by rfl) (by rfl) (by decide)

/-- C10 counterexample: with the version string kind, normalization
succeeds, but renormalizing its own output with the sentinel fails
(the byte-level substitution destroyed the kind key), so idempotence
does not hold for every version string on which normalization
succeeds. -/
theorem normalize_idempotence_cex :
    cleanupManifests colLib (str "kind: Service\n") (str "kind")
        = Except.ok (str "v99.99.99: Service") ∧
    cleanupManifests colLib (str "v99.99.99: Service") dummyVersion
        ≠ Except.ok (str "v99.99.99: Service") :=
  ⟨by decide, by decide⟩

/-- C5 amended: the version-to-sentinel replacement operates on the
re-serialized joined bytes (the output is the trim of the replacement
applied to the marshalled join), and two stampings of one template
normalize identically provided each stamped byte stream splits on its
version exactly as the template splits on the sentinel — i.e. the
version strings collide with nothing else in the serialized bytes. -/
theorem normalize_version_invariance_conditional (L : YamlLib)
    (b₁ b₂ v₁ v₂ J : Str) (ds₁ ds₂ : List DocRes) (js₁ js₂ : List Str)
    (hv₁ : v₁ ≠ []) (hv₂ : v₂ ≠ [])
    (hd₁ : L.decodeAll b₁ = Except.ok ds₁)
    (hp₁ : processDocs L ds₁ = Except.ok js₁)
    (hj₁ : strJoin docSep js₁ = goReplaceAll J dummyVersion v₁)
    (hs₁ : goSplit (goReplaceAll J dummyVersion v₁) v₁ = goSplit J dummyVersion)
    (hd₂ : L.decodeAll b₂ = Except.ok ds₂)
    (hp₂ : processDocs L ds₂ = Except.ok js₂)
    (hj₂ : strJoin docSep js₂ = goReplaceAll J dummyVersion v₂)
    (hs₂ : goSplit (goReplaceAll J dummyVersion v₂) v₂ = goSplit J dummyVersion) :
    cleanupManifests L b₁ v₁ = Except.ok (goTrim J) ∧
    cleanupManifests L b₂ v₂ = Except.ok (goTrim J) := by
  have hdum : dummyVersion ≠ [] := by decide
  constructor
  · simp only [cleanupManifests, hd₁, hp₁, hj₁, goReplaceAll_back hdum hv₁ hs₁]
  · simp only [cleanupManifests, hd₂, hp₂, hj₂, goReplaceAll_back hdum hv₂ hs₂]

theorem normalize_version_invariance_conditional_witness :
    cleanupManifests verLib (str "image: reg/ctl:v1.0.0\nkind: Service\nnote: fixed\n")
        (str "v1.0.0")
      = Except.ok (goTrim (str "image: reg/ctl:v99.99.99\nkind: Service\nnote: fixed\n")) ∧
    cleanupManifests verLib (str "image: reg/ctl:v3.0.0\nkind: Service\nnote: fixed\n")
        (str "v3.0.0")
      = Except.ok (goTrim (str "image: reg/ctl:v99.99.99\nkind: Service\nnote: fixed\n")) :=
  normalize_version_invariance_conditional verLib
    (str "image: reg/ctl:v1.0.0\nkind: Service\nnote: fixed\n")
    (str "image: reg/ctl:v3.0.0\nkind: Service\nnote: fixed\n")
    (str "v1.0.0") (str "v3.0.0")
    (str "image: reg/ctl:v99.99.99\nkind: Service\nnote: fixed\n")
    [DocRes.mapDoc (stampedDoc "reg/ctl:v1.0.0" "fixed")]
    [DocRes.mapDoc (stampedDoc "reg/ctl:v3.0.0" "fixed")]
    [str "image: reg/ctl:v1.0.0\nkind: Service\nnote: fixed\n"]
    [str "image: reg/ctl:v3.0.0\nkind: Service\nnote: fixed\n"]
    (by decide) (by decide) (by rfl) (by rfl) (by decide) (by decide)
    (by rfl) (by rfl) (by decide) (by decide)

/-- C5 counterexample: stamping the same structural manifest with two
different version strings does not always normalize identically — a
fixed field whose value equals one of the two version strings is
scrubbed under that version but kept unchanged under the other. -/
theorem normalize_version_invariance_cex :
    cleanupManifests verLib
        (str "image: reg/ctl:v1.0.0\nkind: Service\nnote: v2.0.0\n") (str "v1.0.0")
      = Except.ok (str "image: reg/ctl:v99.99.99\nkind: Service\nnote: v2.0.0") ∧
    cleanupManifests verLib
        (str "image: reg/ctl:v2.0.0\nkind: Service\nnote: v2.0.0\n") (str "v2.0.0")
      = Except.ok (str "image: reg/ctl:v99.99.99\nkind: Service\nnote: v99.99.99") ∧
    str "image: reg/ctl:v99.99.99\nkind: Service\nnote: v2.0.0"
      ≠ str "image: reg/ctl:v99.99.99\nkind: Service\nnote: v99.99.99" :=
  ⟨by decide, by decide, by decide⟩

/-- C9 (spec-modelled detector): when the query normalizes, the
candidate set is exactly the catalog versions mapping to the query's
fingerprint; with two or more candidates detect returns the full set
and no single pick, and with exactly one candidate it returns that
version unambiguously. -/
theorem detect_ambiguous_full_set (L : YamlLib) (inv : Inventory) (q canon : Str)
    (hq : cleanupManifests L q dummyVersion = Except.ok canon) :
    (∀ v', v' ∈ groupVersions inv.Versions (fnvHex canon)
      ↔ (v', fnvHex canon) ∈ inv.Versions) ∧
    (2 ≤ (groupVersions inv.Versions (fnvHex canon)).length →
      detect L inv q
        = Except.ok ⟨[], groupVersions inv.Versions (fnvHex canon)⟩) ∧
    (∀ v', groupVersions inv.Versions (fnvHex canon) = [v'] →
      detect L inv q = Except.ok ⟨v', [v']⟩) := by
  refine ⟨?_, ?_, ?_⟩
  · intro v'
    unfold groupVersions
    rw [List.mem_filterMap]
    constructor
    · rintro ⟨⟨a, b⟩, hp, hf⟩
      by_cases hfp : b = fnvHex canon
      · simp only [hfp, if_pos rfl] at hf
        injection hf with hf
        subst hf
        subst hfp
        exact hp
      · rw [if_neg (by simpa using hfp)] at hf
        exact absurd hf (by simp)
    · intro hmem
      exact ⟨(v', fnvHex canon), hmem, by rw [if_pos rfl]⟩
  · intro h2
    simp only [detect, hq]
    unfold detectRes
    cases hc : groupVersions inv.Versions (fnvHex canon) with
    | nil => rw [hc] at h2
    | cons a t =>
      cases t with
      | nil => rw [hc] at h2; simp at h2
      | cons b t2 => rfl
  · intro v' hv'
    simp only [detect, hq]
    unfold detectRes
    rw [hv']

theorem detect_ambiguous_full_set_witness :
    (∀ v', v' ∈ groupVersions exInv.Versions (fnvHex (str "kind: Service"))
      ↔ (v', fnvHex (str "kind: Service")) ∈ exInv.Versions) ∧
    (2 ≤ (groupVersions exInv.Versions (fnvHex (str "kind: Service"))).length →
      detect toyLib exInv (str "kind: Service\n")
        = Except.ok ⟨[], groupVersions exInv.Versions (fnvHex (str "kind: Service"))⟩) ∧
    (∀ v', groupVersions exInv.Versions (fnvHex (str "kind: Service")) = [v'] →
      detect toyLib exInv (str "kind: Service\n") = Except.ok ⟨v', [v']⟩) :=
  detect_ambiguous_full_set toyLib exInv (str "kind: Service\n") (str "kind: Service") (by rfl)

/-! ## Claim theorems: the release source adapter -/

theorem exists_mem_cons {α : Type} (a : α) (l : List α) (p : α → Prop) :
    (∃ x ∈ a :: l, p x) ↔ p a ∨ ∃ x ∈ l, p x := by
  constructor
  · rintro ⟨x, hx, hp⟩
    cases List.mem_cons.mp hx with
    | inl h => subst h; exact Or.inl hp
    | inr h => exact Or.inr ⟨x, h, hp⟩
  · rintro (hp | ⟨x, hx, hp⟩)
    · exact ⟨a, List.mem_cons_self a l, hp⟩
    · exact ⟨x, List.mem_cons_of_mem a hx, hp⟩

theorem mem_versAdd (acc : List Str) (w v : Str) :
    v ∈ versAdd acc w ↔ v ∈ acc ∨ v = w := by
  unfold versAdd
  by_cases h : w ∈ acc
  · rw [if_pos h]
    constructor
    · exact Or.inl
    · rintro (hv | rfl)
      · exact hv
      · exact h
  · rw [if_neg h]
    simp [List.mem_append]

theorem specTagInRange_two (maxVersion line v : Str) (p1 p2 : Str)
    (hl : line ≠ []) (hsp : goSplit line (str "refs/tags/") = [p1, p2]) :
    specTagInRange maxVersion line v ↔
      (svCanonical p2 = v ∧ v ≠ [] ∧
        ¬ svCompare v minVersion < 0 ∧ ¬ 0 < svCompare v maxVersion) := by
  unfold specTagInRange specTagOf
  rw [hsp]
  constructor
  · rintro ⟨_, tag, htag, hc, hv, h1, h2⟩
    injection htag with htag
    subst htag
    exact ⟨hc, hv, h1, h2⟩
  · rintro ⟨hc, hv, h1, h2⟩
    exact ⟨hl, p2, rfl, hc, hv, h1, h2⟩

set_option maxHeartbeats 1000000 in
theorem listVersionsLines_mem (maxVersion : Str) :
    ∀ (lines : List Str) (acc res : List Str),
      listVersionsLines maxVersion acc lines = Except.ok res →
      ∀ v, v ∈ res ↔ v ∈ acc ∨ ∃ line ∈ lines, specTagInRange maxVersion line v := by
  intro lines
  induction lines with
  | nil =>
    intro acc res h v
    injection h with h
    subst h
    simp
  | cons line rest ih =>
    intro acc res h v
    rw [exists_mem_cons]
    by_cases hl : line = []
    · subst hl
      simp only [listVersionsLines, if_pos rfl] at h
      rw [ih acc res h v]
      have hfalse : ¬ specTagInRange maxVersion [] v := fun hc => hc.1 rfl
      tauto
    · simp only [listVersionsLines, if_neg hl] at h
      cases hsp : goSplit line (str "refs/tags/") with
      | nil => rw [hsp] at h; simp at h
      | cons p1 t1 =>
        cases t1 with
        | nil => rw [hsp] at h; simp at h
        | cons p2 t2 =>
          cases t2 with
          | cons p3 t3 => rw [hsp] at h; simp at h
          | nil =>
            rw [hsp] at h
            rw [specTagInRange_two maxVersion line v p1 p2 hl hsp]
            by_cases hc1 : svCanonical p2 = []
            · simp only [hc1, if_pos rfl] at h
              rw [ih acc res h v]
              have hfalse : ¬ (svCanonical p2 = v ∧ v ≠ [] ∧
                  ¬ svCompare v minVersion < 0 ∧ ¬ 0 < svCompare v maxVersion) := by
                rintro ⟨rfl, hv, _, _⟩
                exact hv hc1
              tauto
            · simp only [if_neg hc1] at h
              by_cases hc2 : svCompare (svCanonical p2) minVersion < 0
              · simp only [if_pos hc2] at h
                rw [ih acc res h v]
                have hfalse : ¬ (svCanonical p2 = v ∧ v ≠ [] ∧
                    ¬ svCompare v minVersion < 0 ∧ ¬ 0 < svCompare v maxVersion) := by
                  rintro ⟨rfl, _, hlt, _⟩
                  exact hlt hc2
                tauto
              · simp only [if_neg hc2] at h
                by_cases hc3 : 0 < svCompare (svCanonical p2) maxVersion
                · simp only [if_pos hc3] at h
                  rw [ih acc res h v]
                  have hfalse : ¬ (svCanonical p2 = v ∧ v ≠ [] ∧
                      ¬ svCompare v minVersion < 0 ∧ ¬ 0 < svCompare v maxVersion) := by
                    rintro ⟨rfl, _, _, hgt⟩
                    exact hgt hc3
                  tauto
                · simp only [if_neg hc3] at h
                  rw [ih _ res h v, mem_versAdd]
                  have hiff : (svCanonical p2 = v ∧ v ≠ [] ∧
                      ¬ svCompare v minVersion < 0 ∧ ¬ 0 < svCompare v maxVersion)
                      ↔ v = svCanonical p2 := by
                    constructor
                    · rintro ⟨rfl, _, _, _⟩
                      rfl
                    · rintro rfl
                      exact ⟨rfl, hc1, hc2, hc3⟩
                  tauto

/-- C8 amended: for every well-formed git tag listing, the returned
set contains exactly the canonicalized published tags that parse as
valid semantic versions and lie in the closed interval from the floor
version v1.0.0 (inclusive, not strictly above it) up to and including
maxVersion; non-semver tags are skipped. -/
theorem listVersions_range (gitOut maxVersion : Str) (vs : List Str)
    (h : listVersions (Except.ok gitOut) maxVersion = Except.ok vs) :
    ∀ v, v ∈ vs ↔ ∃ line ∈ goSplit gitOut (str "\n"), specTagInRange maxVersion line v := by
  unfold listVersions at h
  intro v
  rw [listVersionsLines_mem maxVersion (goSplit gitOut (str "\n")) [] vs h v]
  simp

set_option maxHeartbeats 2000000 in
theorem listVersions_range_witness :
    listVersions
        (Except.ok (str "sha1\trefs/tags/v1.0.0\nsha2\trefs/tags/v1.5.0\nsha3\trefs/tags/v2.5.0\nsha4\trefs/tags/oddtag"))
        (str "v2.0.0")
      = Except.ok [str "v1.0.0", str "v1.5.0"] ∧
    (str "v1.5.0" ∈ [str "v1.0.0", str "v1.5.0"] ↔
      ∃ line ∈ goSplit
        (str "sha1\trefs/tags/v1.0.0\nsha2\trefs/tags/v1.5.0\nsha3\trefs/tags/v2.5.0\nsha4\trefs/tags/oddtag")
        (str "\n"),
      specTagInRange (str "v2.0.0") line (str "v1.5.0")) :=
  ⟨by decide,
   listVersions_range
     (str "sha1\trefs/tags/v1.0.0\nsha2\trefs/tags/v1.5.0\nsha3\trefs/tags/v2.5.0\nsha4\trefs/tags/oddtag")
     (str "v2.0.0") [str "v1.0.0", str "v1.5.0"] (by decide) (str "v1.5.0")⟩

set_option maxHeartbeats 1000000 in
/-- C8 counterexample: a published tag equal to the floor version
v1.0.0 is returned by listVersions, although it is not strictly above
the floor — the code keeps versions greater than or equal to the
floor, not strictly greater. -/
theorem listVersions_includes_floor_cex :
    listVersions (Except.ok (str "deadbeef\trefs/tags/v1.0.0")) (str "v2.0.0")
      = Except.ok [str "v1.0.0"] ∧
    svCompare (str "v1.0.0") minVersion = 0 :=
  ⟨by decide, by decide⟩

/-! ## Claim theorems: the compile driver -/

theorem firstErr_of_mem {units : List (Str × Except String Str)} {v : Str} {e : String}
    (hmem : (v, Except.error e) ∈ units) : ∃ e', firstErr units = some e' := by
  induction units with
  | nil => cases hmem
  | cons u rest ih =>
    obtain ⟨a, r⟩ := u
    cases r with
    | error e2 => exact ⟨e2, rfl⟩
    | ok m =>
      cases List.mem_cons.mp hmem with
      | inl h => simp at h
      | inr h => exact ih h

theorem firstErr_some_mem {units : List (Str × Except String Str)} {e : String}
    (h : firstErr units = some e) : ∃ v, (v, Except.error e) ∈ units := by
  induction units with
  | nil => simp [firstErr] at h
  | cons u rest ih =>
    obtain ⟨a, r⟩ := u
    cases r with
    | error e2 =>
      rw [show firstErr ((a, Except.error e2) :: rest) = some e2 from rfl] at h
      injection h with h
      subst h
      exact ⟨a, List.mem_cons_self _ _⟩
    | ok m =>
      obtain ⟨v, hv⟩ := ih h
      exact ⟨v, List.mem_cons_of_mem _ hv⟩

/-- C1: partial-failure atomicity of compile: past the short-circuit,
when the version listing succeeds but some fetch-and-normalize unit of
the work set fails, compile leaves the inventory file untouched and
returns a failing unit's error; the merge and the write are never
reached. -/
theorem compile_atomic_on_failure (L : YamlLib) (O : Oracle) (fs : Option Str)
    (maxVersion : Str) (force : Bool) (remote : List Str)
    (hnoshort : ¬ ((loadedInv L fs).LatestVersion = maxVersion ∧ force = false))
    (hlist : listVersions O.git maxVersion = Except.ok remote)
    (hfail : ∃ v ∈ worklist (loadedInv L fs) remote force,
      ∃ e, unitRes L O v = Except.error e) :
    (compile L O fs maxVersion force).1 = fs ∧
    ∃ e, (compile L O fs maxVersion force).2
        = Except.error ("Error downloading manifests: " ++ e) ∧
      ∃ v ∈ worklist (loadedInv L fs) remote force, unitRes L O v = Except.error e := by
  obtain ⟨v0, hv0, e0, he0⟩ := hfail
  have hmem : (v0, Except.error e0) ∈ compileUnits L O (loadedInv L fs) remote force := by
    unfold compileUnits
    exact List.mem_map.mpr ⟨v0, hv0, by rw [he0]⟩
  obtain ⟨e1, he1⟩ := firstErr_of_mem hmem
  obtain ⟨v1, hv1⟩ := firstErr_some_mem he1
  obtain ⟨v2, hv2mem, hv2eq⟩ := List.mem_map.mp hv1
  have hv2 : unitRes L O v2 = Except.error e1 := congrArg Prod.snd hv2eq
  have hstep : compile L O fs maxVersion force
      = compileFetch L O fs (loadedInv L fs) maxVersion force remote := by
    unfold compile
    rw [if_neg hnoshort, hlist]
  have hfetch : compileFetch L O fs (loadedInv L fs) maxVersion force remote
      = (fs, Except.error ("Error downloading manifests: " ++ e1)) := by
    unfold compileFetch
    rw [he1]
  rw [hstep, hfetch]
  exact ⟨rfl, e1, rfl, v2, hv2mem, hv2⟩

set_option maxHeartbeats 1000000 in
theorem compile_atomic_on_failure_witness :
    (compile toyLib failOracle none (str "v1.0.0") false).1 = none ∧
    ∃ e, (compile toyLib failOracle none (str "v1.0.0") false).2
        = Except.error ("Error downloading manifests: " ++ e) ∧
      ∃ v ∈ worklist (loadedInv toyLib none) [str "v1.0.0"] false,
        unitRes toyLib failOracle v = Except.error e :=
  compile_atomic_on_failure toyLib failOracle none (str "v1.0.0") false [str "v1.0.0"]
    (by decide) (by decide)
    ⟨str "v1.0.0", by decide,
      "error downloading CRD for version v1.0.0: down", by decide⟩

/-- C3 amended: when the loaded inventory's LatestVersion equals the
requested maxVersion and force is off, compile short-circuits: the
file bytes are unchanged, the run reports success, and the outcome is
identical under any two network worlds (no version listing or
manifest fetch is consulted). Two consecutive compiles with the same
maxVersion behave this way on the second run only when re-reading the
written file yields LatestVersion = maxVersion — in particular
maxVersion must be canonical and the file must re-read successfully. -/
theorem compile_noop_when_latest_matches (L : YamlLib) (fs : Option Str)
    (maxVersion : Str) (O O' : Oracle)
    (h : (loadedInv L fs).LatestVersion = maxVersion) :
    compile L O fs maxVersion false
        = (fs, Except.ok ("Version " ++ String.mk maxVersion ++ " is already the latest version")) ∧
    compile L O fs maxVersion false = compile L O' fs maxVersion false := by
  constructor
  · unfold compile
    rw [if_pos ⟨h, rfl⟩]
  · unfold compile
    rw [if_pos ⟨h, rfl⟩, if_pos ⟨h, rfl⟩]

set_option maxHeartbeats 1000000 in
theorem compile_noop_when_latest_matches_witness :
    compile toyLib errOracle
        (some (str "# [CHK_LATEST_VERSION]: v1.9.0\n---\n# [CHK_VERSIONS]: v1.9.0\nkind: Service\n---\n"))
        (str "v1.9.0") false
      = (some (str "# [CHK_LATEST_VERSION]: v1.9.0\n---\n# [CHK_VERSIONS]: v1.9.0\nkind: Service\n---\n"),
        Except.ok ("Version " ++ String.mk (str "v1.9.0") ++ " is already the latest version")) ∧
    compile toyLib errOracle
        (some (str "# [CHK_LATEST_VERSION]: v1.9.0\n---\n# [CHK_VERSIONS]: v1.9.0\nkind: Service\n---\n"))
        (str "v1.9.0") false
      = compile toyLib okOracle
        (some (str "# [CHK_LATEST_VERSION]: v1.9.0\n---\n# [CHK_VERSIONS]: v1.9.0\nkind: Service\n---\n"))
        (str "v1.9.0") false :=
  compile_noop_when_latest_matches toyLib
    (some (str "# [CHK_LATEST_VERSION]: v1.9.0\n---\n# [CHK_VERSIONS]: v1.9.0\nkind: Service\n---\n"))
    (str "v1.9.0") errOracle okOracle (by decide)

set_option maxHeartbeats 4000000 in
/-- C3 counterexample: with the non-canonical maxVersion v1.9, the
first compile writes the inventory file, yet the second compile with
the same maxVersion and no force still consults the network: under a
failing tag listing it returns the listing error, and its outcome
differs between two network worlds, because the stored latest version
re-reads as the canonical v1.9.0 which is not the string v1.9. -/
theorem compile_second_run_contacts_network_cex :
    (compile toyLib errOracle
        ((compile toyLib okOracle none (str "v1.9") false).1) (str "v1.9") false).2
      = Except.error "Error listing versions: failed to list tags: boom" ∧
    compile toyLib errOracle
        ((compile toyLib okOracle none (str "v1.9") false).1) (str "v1.9") false
      ≠ compile toyLib okOracle
        ((compile toyLib okOracle none (str "v1.9") false).1) (str "v1.9") false :=
  ⟨by decide, by decide⟩

/-! ## Round-trip lemmas for the inventory codec -/

theorem sepMark_eq : str "---\n" ++ verMark = sepMark := by decide

theorem strDropPre_append (p s : Str) : strDropPre (p ++ s) p = s := by
  unfold strDropPre
  rw [if_pos (isPre_append p s), List.drop_left]

theorem findSub_char {c : Char} {a : Str} (h : c ∉ a) (b : Str) :
    findSub [c] (a ++ c :: b) = some a.length := by
  induction a with
  | nil =>
    simp only [List.nil_append, findSub]
    rw [if_pos (by simp [List.isPrefixOf])]
    rfl
  | cons d rest ih =>
    have hd : d ≠ c := fun hh => h (hh ▸ List.mem_cons_self d rest)
    have hrest : c ∉ rest := fun hh => h (List.mem_cons_of_mem d hh)
    rw [List.cons_append, findSub,
      if_neg (by simp [List.isPrefixOf]; intro hh; exact absurd hh.symm hd),
      ih hrest]
    rfl

theorem goSplitN2_char {c : Char} {a : Str} (h : c ∉ a) (b : Str) :
    goSplitN2 (a ++ c :: b) [c] = [a, b] := by
  have h1 : (a ++ c :: b).take a.length = a := by
    have := List.take_left a (c :: b)
    simp at this
    simp [this]
  have h2 : (a ++ c :: b).drop (a.length + 1) = b := by
    have he : a ++ c :: b = (a ++ [c]) ++ b := by simp
    rw [he, show a.length + 1 = (a ++ [c]).length by simp, List.drop_left]
  unfold goSplitN2
  rw [findSub_char h b]
  show [(a ++ c :: b).take a.length, (a ++ c :: b).drop (a.length + 1)] = [a, b]
  rw [h1, h2]

theorem mem_strJoin {c : Char} (sep : Str) :
    ∀ (l : List Str), c ∈ strJoin sep l → c ∈ sep ∨ ∃ x ∈ l, c ∈ x := by
  intro l
  induction l with
  | nil => intro h; cases h
  | cons x t ih =>
    intro h
    cases t with
    | nil =>
      right
      exact ⟨x, List.mem_cons_self _ _, h⟩
    | cons y t2 =>
      rw [strJoin_two sep x (by simp)] at h
      rcases List.mem_append.mp h with h1 | h2
      · rcases List.mem_append.mp h1 with h3 | h4
        · exact Or.inr ⟨x, List.mem_cons_self _ _, h3⟩
        · exact Or.inl h4
      · rcases ih h2 with h3 | ⟨z, hz, hcz⟩
        · exact Or.inl h3
        · exact Or.inr ⟨z, List.mem_cons_of_mem _ hz, hcz⟩

theorem goSplit_join_comma :
    ∀ (v : Str) (rest : List Str),
      (∀ w ∈ v :: rest, occursIn [','] w = false) →
      goSplit (strJoin (str ", ") (v :: rest)) [','] = v :: rest.map (fun w => ' ' :: w) := by
  intro v rest
  induction rest generalizing v with
  | nil =>
    intro h
    exact goSplit_no_occur (by simp) (h v (List.mem_cons_self _ _))
  | cons w t ih =>
    intro h
    have hv : occursIn [','] v = false := h v (List.mem_cons_self _ _)
    have hrest : ∀ u ∈ w :: t, occursIn [','] u = false :=
      fun u hu => h u (List.mem_cons_of_mem _ hu)
    have hjoin : strJoin (str ", ") (v :: w :: t)
        = v ++ ([','] ++ (' ' :: strJoin (str ", ") (w :: t))) := by
      rw [strJoin_two (str ", ") v (by simp)]
      simp [str, List.append_assoc]
    rw [hjoin, show v ++ ([','] ++ (' ' :: strJoin (str ", ") (w :: t)))
        = v ++ (([','] : Str) ++ (' ' :: strJoin (str ", ") (w :: t))) from rfl]
    rw [goSplit_append (by simp) _ (by simpa using hv)]
    rw [goSplit_neg (by simp) (by simp [List.isPrefixOf])]
    rw [ih w hrest]
    rfl

theorem svSort_sorted_id :
    ∀ (l : List Str), List.Chain' (fun a b => svCompare a b < 0) l → svSort l = l := by
  intro l
  induction l with
  | nil => intro _; rfl
  | cons x xs ih =>
    intro h
    have hxs : List.Chain' (fun a b => svCompare a b < 0) xs := h.tail
    show svInsert x (svSort xs) = x :: xs
    rw [ih hxs]
    cases xs with
    | nil => rfl
    | cons y ys =>
      have hxy : svCompare x y < 0 := (List.chain'_cons.mp h).1
      unfold svInsert
      rw [if_pos hxy]

theorem grpSort_sorted_id :
    ∀ (l : List (List Str × Str)),
      List.Chain' (fun g1 g2 => svCompare (g1.1.headD []) (g2.1.headD []) < 0) l →
      grpSort l = l := by
  intro l
  induction l with
  | nil => intro _; rfl
  | cons x xs ih =>
    intro h
    show grpInsert x (grpSort xs) = x :: xs
    rw [ih h.tail]
    cases xs with
    | nil => rfl
    | cons y ys =>
      have hxy := (List.chain'_cons.mp h).1
      unfold grpInsert
      rw [if_pos hxy]

theorem mapGet_append_left {m : List (Str × Str)} {k : Str} (n : List (Str × Str))
    (h : mapGet m k = none) : mapGet (m ++ n) k = mapGet n k := by
  induction m with
  | nil => rfl
  | cons p rest ih =>
    by_cases hk : p.1 = k
    · rw [mapGet, if_pos hk] at h
      exact absurd h (by simp)
    · rw [mapGet, if_neg hk] at h
      rw [List.cons_append, mapGet, if_neg hk]
      exact ih h

theorem mapSet_fresh {m : List (Str × Str)} {k : Str} (v : Str)
    (h : mapGet m k = none) : mapSet m k v = m ++ [(k, v)] := by
  unfold mapSet
  rw [if_neg (by rw [h]; simp)]

theorem groupVersions_append (a b : List (Str × Str)) (h : Str) :
    groupVersions (a ++ b) h = groupVersions a h ++ groupVersions b h := by
  unfold groupVersions
  exact List.filterMap_append a b _

theorem groupVersions_same (vs : List Str) (h : Str) :
    groupVersions (vs.map (fun v => (v, h))) h = vs := by
  induction vs with
  | nil => rfl
  | cons v t ih =>
    unfold groupVersions at *
    simp only [List.map_cons, List.filterMap_cons]
    simp [ih]

theorem groupVersions_other (vs : List Str) {h h' : Str} (hne : h' ≠ h) :
    groupVersions (vs.map (fun v => (v, h'))) h = [] := by
  induction vs with
  | nil => rfl
  | cons v t ih =>
    unfold groupVersions at *
    simp only [List.map_cons, List.filterMap_cons, if_neg hne]
    exact ih

theorem filterMapCongr {α β : Type} {f f' : α → Option β} :
    ∀ {l : List α}, (∀ a ∈ l, f a = f' a) → l.filterMap f = l.filterMap f' := by
  intro l
  induction l with
  | nil => intro _; rfl
  | cons x t ih =>
    intro h
    rw [List.filterMap_cons, List.filterMap_cons, h x (List.mem_cons_self _ _),
      ih (fun a ha => h a (List.mem_cons_of_mem _ ha))]

theorem vsOf_cons (g : List Str × Str) (rest : List (List Str × Str)) :
    vsOf (g :: rest) = g.1.map (fun v => (v, fnvHex g.2)) ++ vsOf rest := by
  simp [vsOf]

theorem wfInv_versions (lv : Str) (gs : List (List Str × Str)) :
    (wfInv lv gs).Versions = vsOf gs := rfl

theorem groupVersions_vsOf_miss :
    ∀ (gs : List (List Str × Str)) (h : Str),
      (∀ g ∈ gs, fnvHex g.2 ≠ h) → groupVersions (vsOf gs) h = [] := by
  intro gs
  induction gs with
  | nil => intro h _; rfl
  | cons g rest ih =>
    intro h hmiss
    rw [vsOf_cons, groupVersions_append,
      groupVersions_other _ (hmiss g (List.mem_cons_self _ _)),
      ih h (fun g' hg' => hmiss g' (List.mem_cons_of_mem _ hg'))]
    rfl

theorem wfInv_manifests (lv : Str) (gs : List (List Str × Str)) :
    (wfInv lv gs).Manifests = gs.map (fun g => (fnvHex g.2, g.2)) := rfl

theorem invGroups_wf :
    ∀ (gs : List (List Str × Str)) (lv : Str),
      (∀ g ∈ gs, g.1 ≠ [] ∧ List.Chain' (fun a b => svCompare a b < 0) g.1) →
      (gs.map (fun g => fnvHex g.2)).Nodup →
      invGroups (wfInv lv gs) = gs := by
  intro gs
  induction gs with
  | nil => intro lv _ _; rfl
  | cons g rest ih =>
    intro lv hg hnd
    rw [List.map_cons] at hnd
    obtain ⟨hnotin, hnd'⟩ := List.nodup_cons.mp hnd
    have hheadmiss : ∀ g' ∈ rest, fnvHex g'.2 ≠ fnvHex g.2 := by
      intro g' hg' hc
      exact hnotin (List.mem_map.mpr ⟨g', hg', hc⟩)
    have hheadv : groupVersions (vsOf (g :: rest)) (fnvHex g.2) = g.1 := by
      rw [vsOf_cons, groupVersions_append, groupVersions_same,
        groupVersions_vsOf_miss rest _ hheadmiss, List.append_nil]
    have hg1 := hg g (List.mem_cons_self _ _)
    unfold invGroups
    simp only [wfInv_versions, wfInv_manifests, List.map_cons, List.filterMap_cons]
    rw [hheadv, if_neg hg1.1, svSort_sorted_id g.1 hg1.2]
    have htail :
        List.filterMap (fun p =>
          if groupVersions (vsOf (g :: rest)) p.1 = [] then none
          else some (svSort (groupVersions (vsOf (g :: rest)) p.1), p.2))
          (rest.map (fun g' => (fnvHex g'.2, g'.2)))
        = List.filterMap (fun p =>
          if groupVersions (vsOf rest) p.1 = [] then none
          else some (svSort (groupVersions (vsOf rest) p.1), p.2))
          (rest.map (fun g' => (fnvHex g'.2, g'.2))) := by
      apply filterMapCongr
      intro p hp
      obtain ⟨g', hg', hpe⟩ := List.mem_map.mp hp
      have hp1 : p.1 = fnvHex g'.2 := by rw [← hpe]
      have hne : fnvHex g.2 ≠ p.1 := by
        rw [hp1]
        exact fun hc => (hheadmiss g' hg') hc.symm
      rw [vsOf_cons, groupVersions_append, groupVersions_other _ hne, List.nil_append]
    rw [htail]
    have hrid : List.filterMap (fun p =>
          if groupVersions (vsOf rest) p.1 = [] then none
          else some (svSort (groupVersions (vsOf rest) p.1), p.2))
          (rest.map (fun g' => (fnvHex g'.2, g'.2)))
        = invGroups (wfInv lv rest) := rfl
    rw [hrid, ih lv (fun g' hg' => hg g' (List.mem_cons_of_mem _ hg')) hnd']

theorem invWrite_wf (lv : Str) (gs : List (List Str × Str))
    (hg : ∀ g ∈ gs, g.1 ≠ [] ∧ List.Chain' (fun a b => svCompare a b < 0) g.1)
    (hnd : (gs.map (fun g => fnvHex g.2)).Nodup)
    (hchain : List.Chain' (fun g1 g2 => svCompare (g1.1.headD []) (g2.1.headD []) < 0) gs) :
    invWrite (wfInv lv gs) = hdrMark ++ lv ++ str "\n---\n" ++ (gs.map blockOut).flatten := by
  unfold invWrite
  rw [invGroups_wf gs lv hg hnd, grpSort_sorted_id gs hchain]
  rfl

theorem nlSplit : str "\n---\n" = str "\n" ++ str "---\n" := by decide

theorem bodyEq : ∀ (gs : List (List Str × Str)), gs ≠ [] →
    str "---\n" ++ (gs.map blockOut).flatten = sepMark ++ auxStr gs := by
  intro gs
  induction gs with
  | nil => intro h; exact absurd rfl h
  | cons g rest ih =>
    intro _
    cases rest with
    | nil =>
      show str "---\n" ++ (blockOut g ++ []) = sepMark ++ pieceLast g
      rw [List.append_nil, ← sepMark_eq]
      simp [blockOut, pieceLast, List.append_assoc]
    | cons g' t =>
      have hrest := ih (by simp)
      show str "---\n" ++ (blockOut g ++ ((g' :: t).map blockOut).flatten)
          = sepMark ++ auxStr (g :: g' :: t)
      have h1 : str "---\n" ++ (blockOut g ++ ((g' :: t).map blockOut).flatten)
          = (str "---\n" ++ verMark) ++
            (pieceShort g ++ (str "---\n" ++ ((g' :: t).map blockOut).flatten)) := by
        simp [blockOut, pieceShort, nlSplit, List.append_assoc]
      rw [h1, sepMark_eq, hrest]
      show sepMark ++ (pieceShort g ++ (sepMark ++ auxStr (g' :: t)))
          = sepMark ++ (pieceShort g ++ sepMark ++ auxStr (g' :: t))
      simp [List.append_assoc]

theorem sepMark_ne_nil : sepMark ≠ [] := by decide

theorem goSplit_auxStr : ∀ (gs : List (List Str × Str)), gs ≠ [] →
    (∀ g ∈ gs, occursIn sepMark (pieceShort g ++ sepMark.dropLast) = false ∧
      occursIn sepMark (pieceLast g) = false) →
    goSplit (auxStr gs) sepMark = wfPieces gs := by
  intro gs
  induction gs with
  | nil => intro h _; exact absurd rfl h
  | cons g rest ih =>
    intro _ hno
    cases rest with
    | nil =>
      show goSplit (pieceLast g) sepMark = [pieceLast g]
      exact goSplit_no_occur sepMark_ne_nil (hno g (List.mem_cons_self _ _)).2
    | cons g' t =>
      show goSplit (pieceShort g ++ sepMark ++ auxStr (g' :: t)) sepMark
          = pieceShort g :: wfPieces (g' :: t)
      rw [List.append_assoc,
        goSplit_append sepMark_ne_nil _ (hno g (List.mem_cons_self _ _)).1,
        ih (by simp) (fun g'' h'' => hno g'' (List.mem_cons_of_mem _ h''))]

theorem decorate_true_eq_map :
    ∀ (l : List Str), decorate true l = l.map (fun v => ' ' :: v) := by
  intro l
  induction l with
  | nil => rfl
  | cons v t ih =>
    show (' ' :: v) :: decorate true t = (' ' :: v) :: t.map (fun v => ' ' :: v)
    rw [ih]

theorem addVersions_wf (hash : Str) :
    ∀ (vs : List Str) (vmap : List (Str × Str)) (ws : Bool),
      (∀ v ∈ vs, svCanonical v = v ∧ v ≠ [] ∧ goTrimSpace v = v ∧ goTrimSpace (' ' :: v) = v) →
      (∀ v ∈ vs, mapGet vmap v = none) →
      vs.Nodup →
      addVersions hash (decorate ws vs) vmap
        = Except.ok (vmap ++ vs.map (fun v => (v, hash))) := by
  intro vs
  induction vs with
  | nil =>
    intro vmap ws _ _ _
    simp [decorate, addVersions]
  | cons v t ih =>
    intro vmap ws hprop hfresh hnd
    have hv := hprop v (List.mem_cons_self _ _)
    have hver : svCanonical (goTrimSpace (if ws then ' ' :: v else v)) = v := by
      cases ws with
      | true =>
        rw [if_pos rfl, hv.2.2.2, hv.1]
      | false =>
        rw [if_neg (by simp), hv.2.2.1, hv.1]
    obtain ⟨hvnotmem, hndt⟩ := List.nodup_cons.mp hnd
    show addVersions hash ((if ws then ' ' :: v else v) :: decorate true t) vmap = _
    unfold addVersions
    rw [hver, if_neg hv.2.1, mapSet_fresh hash (hfresh v (List.mem_cons_self _ _))]
    have hfresh' : ∀ w ∈ t, mapGet (vmap ++ [(v, hash)]) w = none := by
      intro w hw
      rw [mapGet_append_left _ (hfresh w (List.mem_cons_of_mem _ hw))]
      unfold mapGet
      have hne : ¬ (v = w) := by
        intro hc
        subst hc
        exact hvnotmem hw
      rw [if_neg hne]
      rfl
    rw [ih (vmap ++ [(v, hash)]) true
      (fun w hw => hprop w (List.mem_cons_of_mem _ hw)) hfresh' hndt]
    simp [List.append_assoc]

theorem mapGet_pairs_none {v : Str} (h : Str) :
    ∀ (vs : List Str), v ∉ vs → mapGet (vs.map (fun w => (w, h))) v = none := by
  intro vs
  induction vs with
  | nil => intro _; rfl
  | cons w t ih =>
    intro hnotin
    show mapGet ((w, h) :: t.map (fun w => (w, h))) v = none
    unfold mapGet
    have hne : ¬ (w = v) := by
      intro hc
      subst hc
      exact hnotin (List.mem_cons_self _ _)
    rw [if_neg hne]
    exact ih (fun hc => hnotin (List.mem_cons_of_mem _ hc))

theorem readBlock_wf (L : YamlLib) (lv : Str) (accV accM : List (Str × Str))
    (g : List Str × Str) (tail : Str)
    (hne : g.1 ≠ [])
    (hvs : ∀ v ∈ g.1, svCanonical v = v ∧ v ≠ [] ∧ occursIn [','] v = false ∧ ('\n' ∉ v) ∧
      goTrimSpace v = v ∧ goTrimSpace (' ' :: v) = v)
    (htrim : goTrimSpace (strJoin (str ", ") g.1) = strJoin (str ", ") g.1)
    (hclean : cleanupManifests L (g.2 ++ tail) dummyVersion = Except.ok g.2)
    (hndg : g.1.Nodup)
    (hfreshV : ∀ v ∈ g.1, mapGet accV v = none)
    (hfreshM : mapGet accM (fnvHex g.2) = none) :
    readBlock L ⟨lv, accV, accM⟩ (strJoin (str ", ") g.1 ++ '\n' :: (g.2 ++ tail))
      = Except.ok ⟨lv, accV ++ g.1.map (fun v => (v, fnvHex g.2)),
          accM ++ [(fnvHex g.2, g.2)]⟩ := by
  have hJnl : '\n' ∉ strJoin (str ", ") g.1 := by
    intro hmem
    rcases mem_strJoin (str ", ") g.1 hmem with hs | ⟨v, hv, hcv⟩
    · exact absurd hs (by decide)
    · exact (hvs v hv).2.2.2.1 hcv
  obtain ⟨v0, vr, hg1⟩ : ∃ v0 vr, g.1 = v0 :: vr := by
    cases hc : g.1 with
    | nil => exact absurd hc hne
    | cons a b => exact ⟨a, b, rfl⟩
  have hsplitJ : goSplit (strJoin (str ", ") g.1) [','] = decorate false g.1 := by
    rw [hg1, goSplit_join_comma v0 vr
      (fun w hw => (hvs w (hg1 ▸ hw)).2.2.1)]
    show v0 :: vr.map (fun w => ' ' :: w) = v0 :: decorate true vr
    rw [decorate_true_eq_map]
  have haddv : addVersions (fnvHex g.2) (decorate false g.1) accV
      = Except.ok (accV ++ g.1.map (fun v => (v, fnvHex g.2))) :=
    addVersions_wf (fnvHex g.2) g.1 accV false
      (fun v hv => ⟨(hvs v hv).1, (hvs v hv).2.1,
        (hvs v hv).2.2.2.2.1, (hvs v hv).2.2.2.2.2⟩)
      hfreshV hndg
  have hlen : 0 < (accV ++ g.1.map (fun v => (v, fnvHex g.2))).length := by
    rw [hg1]
    simp
  have hsep : str "\n" = ['\n'] := rfl
  unfold readBlock
  rw [if_neg (by simp), hsep, goSplitN2_char hJnl (g.2 ++ tail)]
  simp only [hclean, htrim, hsplitJ, haddv]
  rw [if_pos hlen, mapSet_fresh g.2 hfreshM]

theorem pieceShort_eq (g : List Str × Str) :
    pieceShort g = strJoin (str ", ") g.1 ++ '\n' :: (g.2 ++ str "\n") := by
  simp [pieceShort, List.append_assoc]
  rfl

theorem pieceLast_eq (g : List Str × Str) :
    pieceLast g = strJoin (str ", ") g.1 ++ '\n' :: (g.2 ++ str "\n---\n") := by
  simp [pieceLast, List.append_assoc]
  rfl

theorem readBlocks_wf (L : YamlLib) (lv : Str) :
    ∀ (rem : List (List Str × Str)) (accV accM : List (Str × Str)),
      rem ≠ [] →
      (∀ g ∈ rem, wfGroup L g) →
      (∀ g ∈ rem, ∀ v ∈ g.1, mapGet accV v = none) →
      (∀ g ∈ rem, mapGet accM (fnvHex g.2) = none) →
      ((rem.map Prod.fst).flatten).Nodup →
      (rem.map (fun g => fnvHex g.2)).Nodup →
      readBlocks L ⟨lv, accV, accM⟩ (wfPieces rem)
        = Except.ok ⟨lv, accV ++ vsOf rem,
            accM ++ rem.map (fun g => (fnvHex g.2, g.2))⟩ := by
  intro rem
  induction rem with
  | nil => intro accV accM h; exact absurd rfl h
  | cons g rest ih =>
    intro accV accM _ hg hfV hfM hndv hndh
    have hwg := hg g (List.mem_cons_self _ _)
    obtain ⟨hne1, hvs, _, htr, hcS, hcL, _, _⟩ := hwg
    have hflat : ((g :: rest).map Prod.fst).flatten
        = g.1 ++ (rest.map Prod.fst).flatten := by simp
    rw [hflat] at hndv
    obtain ⟨hnd1, hndrest, hdisj⟩ := List.nodup_append.mp hndv
    cases rest with
    | nil =>
      show readBlocks L ⟨lv, accV, accM⟩ [pieceLast g] = _
      unfold readBlocks
      rw [pieceLast_eq,
        readBlock_wf L lv accV accM g (str "\n---\n") hne1 hvs htr hcL hnd1
          (hfV g (List.mem_cons_self _ _)) (hfM g (List.mem_cons_self _ _))]
      show readBlocks L ⟨lv, accV ++ g.1.map (fun v => (v, fnvHex g.2)),
          accM ++ [(fnvHex g.2, g.2)]⟩ [] = _
      unfold readBlocks
      simp [vsOf]
    | cons g2 t =>
      show readBlocks L ⟨lv, accV, accM⟩ (pieceShort g :: wfPieces (g2 :: t)) = _
      unfold readBlocks
      rw [pieceShort_eq,
        readBlock_wf L lv accV accM g (str "\n") hne1 hvs htr hcS hnd1
          (hfV g (List.mem_cons_self _ _)) (hfM g (List.mem_cons_self _ _))]
      have hfV' : ∀ g' ∈ g2 :: t, ∀ v ∈ g'.1,
          mapGet (accV ++ g.1.map (fun v => (v, fnvHex g.2))) v = none := by
        intro g' hg' v hv
        rw [mapGet_append_left _ (hfV g' (List.mem_cons_of_mem _ hg') v hv)]
        refine mapGet_pairs_none (fnvHex g.2) g.1 (fun hvin => ?_)
        exact hdisj hvin (List.mem_flatten.mpr
          ⟨g'.1, List.mem_map.mpr ⟨g', hg', rfl⟩, hv⟩)
      have hfM' : ∀ g' ∈ g2 :: t,
          mapGet (accM ++ [(fnvHex g.2, g.2)]) (fnvHex g'.2) = none := by
        intro g' hg'
        rw [mapGet_append_left _ (hfM g' (List.mem_cons_of_mem _ hg'))]
        unfold mapGet
        have hneq : ¬ (fnvHex g.2 = fnvHex g'.2) := by
          intro hc
          have hmem : fnvHex g'.2 ∈ List.map (fun g => fnvHex g.2) (g2 :: t) :=
            List.mem_map.mpr ⟨g', hg', rfl⟩
          rw [← hc] at hmem
          exact (List.nodup_cons.mp hndh).1 hmem
        rw [if_neg hneq]
        rfl
      show readBlocks L ⟨lv, accV ++ g.1.map (fun v => (v, fnvHex g.2)),
          accM ++ [(fnvHex g.2, g.2)]⟩ (wfPieces (g2 :: t)) = _
      rw [ih (accV ++ g.1.map (fun v => (v, fnvHex g.2))) (accM ++ [(fnvHex g.2, g.2)])
        (by simp) (fun g' hg' => hg g' (List.mem_cons_of_mem _ hg'))
        hfV' hfM' hndrest (List.nodup_cons.mp hndh).2]
      simp [vsOf_cons, List.append_assoc]

theorem readBlocks_empty_block (L : YamlLib) (inv : Inventory) (ps : List Str) :
    readBlocks L inv ([] :: ps) = readBlocks L inv ps := rfl

theorem invRead_wf (L : YamlLib) (lv : Str) (gs : List (List Str × Str))
    (h : wfCatalog L lv gs) :
    invRead L (invWrite (wfInv lv gs)) = Except.ok (wfInv lv gs) := by
  obtain ⟨hne0, hlvne, hlvcan, hlvnl, htrimh, hgs, hndh, hndv, hchain⟩ := h
  have hwrite := invWrite_wf lv gs
    (fun g hg => ⟨(hgs g hg).1, (hgs g hg).2.2.1⟩) hndh hchain
  have hbytes : hdrMark ++ lv ++ str "\n---\n" ++ (gs.map blockOut).flatten
      = (hdrMark ++ lv) ++ '\n' :: (str "---\n" ++ (gs.map blockOut).flatten) := by
    simp only [List.append_assoc]
    rfl
  have hwrite' : invWrite (wfInv lv gs)
      = (hdrMark ++ lv) ++ '\n' :: (str "---\n" ++ (gs.map blockOut).flatten) :=
    hwrite.trans hbytes
  have hnot : '\n' ∉ hdrMark ++ lv := by
    intro hmem
    rcases List.mem_append.mp hmem with h1 | h2
    · exact absurd h1 (by decide)
    · exact hlvnl h2
  have hsep : str "\n" = ['\n'] := rfl
  have hocc : ∀ g ∈ gs, occursIn sepMark (pieceShort g ++ sepMark.dropLast) = false ∧
      occursIn sepMark (pieceLast g) = false :=
    fun g hg => ⟨(hgs g hg).2.2.2.2.2.2.1, (hgs g hg).2.2.2.2.2.2.2⟩
  unfold invRead
  rw [hwrite', hsep, goSplitN2_char hnot (str "---\n" ++ (gs.map blockOut).flatten)]
  show (if svCanonical (strDropPre (goTrimSpace (hdrMark ++ lv)) hdrMark) = []
      then Except.error "failed to parse latest version from first line in manifest file"
      else readBlocks L ⟨svCanonical (strDropPre (goTrimSpace (hdrMark ++ lv)) hdrMark), [], []⟩
        (goSplit (str "---\n" ++ (gs.map blockOut).flatten) sepMark))
    = Except.ok (wfInv lv gs)
  rw [htrimh, strDropPre_append hdrMark lv, hlvcan, if_neg hlvne,
    bodyEq gs hne0, goSplit_sep_cons sepMark_ne_nil, goSplit_auxStr gs hne0 hocc,
    readBlocks_empty_block,
    readBlocks_wf L lv gs [] [] hne0 hgs (fun _ _ _ _ => rfl) (fun _ _ => rfl) hndv hndh]
  rw [List.nil_append, List.nil_append]
  rfl

/-- C2: Round-trip idempotence of the inventory codec: on a well-formed
inventory file — the bytes Inventory.write produces from a catalog of
fingerprint groups satisfying the well-formedness side conditions of
wfCatalog — Inventory.read recovers exactly the in-memory record, and
re-writing the record read back reproduces the file contents byte for
byte, so write ∘ read is the identity on the persisted bytes and
re-writing an unchanged record reproduces the same file. -/
theorem inventory_roundtrip (L : YamlLib) (lv : Str) (gs : List (List Str × Str))
    (h : wfCatalog L lv gs) :
    invRead L (invWrite (wfInv lv gs)) = Except.ok (wfInv lv gs) ∧
    Except.map invWrite (invRead L (invWrite (wfInv lv gs)))
      = Except.ok (invWrite (wfInv lv gs)) := by
  have h1 := invRead_wf L lv gs h
  refine ⟨h1, ?_⟩
  rw [h1]
  rfl

set_option maxHeartbeats 4000000 in
/-- Concrete run of the codec round trip: a two-group catalog over the
toy yaml instance is well-formed, reading back its written bytes yields
the same record, and re-writing reproduces the bytes. -/
theorem inventory_roundtrip_witness :
    wfCatalog toyLib (str "v1.2.0") rtGroups ∧
    (invRead toyLib (invWrite (wfInv (str "v1.2.0") rtGroups))
        = Except.ok (wfInv (str "v1.2.0") rtGroups) ∧
      Except.map invWrite (invRead toyLib (invWrite (wfInv (str "v1.2.0") rtGroups)))
        = Except.ok (invWrite (wfInv (str "v1.2.0") rtGroups))) := by
  have hw : wfCatalog toyLib (str "v1.2.0") rtGroups := by
    unfold wfCatalog wfGroup
    refine ⟨by decide, by decide, by decide, by decide, by decide, ?_, by decide, by decide,
      List.Chain.cons (by decide) List.Chain.nil⟩
    intro g hg
    rcases List.mem_cons.mp hg with rfl | hg'
    · exact ⟨by decide, by decide, List.Chain.nil, by decide, by decide, by decide,
        by decide, by decide⟩
    rcases List.mem_cons.mp hg' with rfl | hg''
    · exact ⟨by decide, by decide, List.Chain.cons (by decide) List.Chain.nil, by decide,
        by decide, by decide, by decide, by decide⟩
    cases hg''
  exact ⟨hw, inventory_roundtrip toyLib (str "v1.2.0") rtGroups hw⟩
